import Mathlib

/-!
Verification of the STEP-entity reordering and renumbering engine
(`reorder.py`).

The engine parses a STEP file into record blocks, builds a dependency
graph over the records, schedules them with a priority-driven variant of
Kahn's algorithm (three clustering policies), optionally renumbers the
records to `1..N`, and writes the result back out.

Shallow embedding.  A record block is modelled by the information the
engine's regular expressions extract from its text:

  * `eid`  — the header identifier (`re.match r'\s*#(\d+)\s*='`);
  * `typ`  — the kind label (`TYPE_RE`, empty string when absent);
  * `refs` — the ordered list of all `#<digits>` occurrences in the
    block other than the single header occurrence (`ID_RE.findall`;
    the header occurrence always equals `eid`, and the engine treats a
    body occurrence of `eid` and the header occurrence identically, so
    keeping the header identifier in a separate field is faithful).

Python dictionaries are modelled by lookup functions (last assignment
wins, as in the source); Python sets by `Finset Nat` (the engine never
depends on set-iteration order: every iteration either feeds a heap,
whose pop is a pure minimum, or performs order-independent updates);
`heapq` heaps by lists whose pop is the unique lexicographic minimum
(all pushed tuples end in the record identifier and are pairwise
distinct in every reachable state, so the minimum is unique).
-/

set_option maxHeartbeats 1000000

/-- A record block, as seen by the engine's extraction patterns. -/
structure Block where
  eid  : Nat
  typ  : String
  refs : List Nat
deriving DecidableEq, Repr

/-- The `--group` command line choice: `strict`, `type` (soft) or `none`. -/
inductive GroupMode where
  | strict
  | soft
  | nogroup
deriving DecidableEq, Repr

/-- A heap entry `(depth, same, order, id)` as pushed by `push` in
`topo_grouped`.  In strict mode the heaps hold `(depth, order, id)`
triples; they are embedded as `(depth, 0, order, id)`, which preserves
all comparisons because the second component is then uniformly `0`. -/
abbrev Key4 := Nat × Nat × Nat × Nat

def keyId (e : Key4) : Nat := e.2.2.2

def keySame (e : Key4) : Nat := e.2.1

def keyOrd (e : Key4) : Nat := e.2.2.1

/-- Lexicographic comparison of heap entries: Python's tuple `<`. -/
def KeyLtP (a b : Key4) : Prop :=
  a.1 < b.1 ∨ (a.1 = b.1 ∧ (a.2.1 < b.2.1 ∨ (a.2.1 = b.2.1 ∧
    (a.2.2.1 < b.2.2.1 ∨ (a.2.2.1 = b.2.2.1 ∧ a.2.2.2 < b.2.2.2)))))

instance instKeyLtPDec : ∀ a b : Key4, Decidable (KeyLtP a b) := fun a b => by
  unfold KeyLtP; exact inferInstance

def keyLt (a b : Key4) : Bool := decide (KeyLtP a b)

/-- `heapq.heappop`: the minimum entry of the heap (ties in favour of the
entry met first, which never matters on reachable states since entries
are pairwise distinct there). -/
def heapMin : List Key4 → Option Key4
  | [] => Option.none
  | e :: es =>
    match heapMin es with
    | Option.none => some e
    | some m => if keyLt e m then some e else some m

/-- Insertion by key, used to model Python's stable `list.sort(key=...)`.
The engine sorts lists of record identifiers by their origin index,
which is injective on identifiers, so any correct sort coincides. -/
def insertOrd (ord : Nat → Nat) (a : Nat) : List Nat → List Nat
  | [] => [a]
  | b :: bs => if ord a ≤ ord b then a :: b :: bs else b :: insertOrd ord a bs

/-- `remaining.sort(key=order.get)`. -/
def sortOrd (ord : Nat → Nat) : List Nat → List Nat
  | [] => []
  | a :: as' => insertOrd ord a (sortOrd ord as')

/-! ## Dependency graph construction (`build_graph`) -/

/-- Forward dependency set of identifier `n`: every `#id` occurrence in
every block whose header identifier is `n`, self-references dropped
(`if rid == eid: continue`).  Accumulates over duplicate headers, as the
source's `deps[eid].add(rid)` does. -/
def depsOf (ents : List Block) (n : Nat) : Finset Nat :=
  (((ents.filter (fun b => b.eid == n)).flatMap Block.refs).filter
    (fun r => r ≠ n)).toFinset

/-- `id2ent[n]`: the last block with header identifier `n`
(`id2ent[eid] = block` overwrites earlier assignments). -/
def entOf (ents : List Block) (n : Nat) : Block :=
  ((ents.filter (fun b => b.eid == n)).getLast?).getD ⟨0, "", []⟩

/-- `typ[n]`: kind label of the last block with header identifier `n`. -/
def typOf (ents : List Block) (n : Nat) : String :=
  (entOf ents n).typ

/-- The loop `for idx, block in enumerate(entities): order[eid] = idx`:
the last origin index at which `n` appears as a header (default `0`,
never consulted for identifiers that do not occur). -/
def originGo (n : Nat) (i acc : Nat) : List Block → Nat
  | [] => acc
  | b :: bs => originGo n (i + 1) (if b.eid == n then i else acc) bs

def originOf (ents : List Block) (n : Nat) : Nat := originGo n 0 0 ents

/-- `get_depth`, the longest-dependency-chain recursion of
`build_graph`, with explicit recursion fuel.  The source recurses
without any cycle guard; its memoisation only caches completed results,
so the memoised recursion terminates exactly when this fuelled version
returns `some` for some fuel, and computes the same value.  `none`
models non-termination (Python's `RecursionError`). -/
def get_depthF (deps : Nat → Finset Nat) : Nat → Nat → Option Nat
  | 0, _ => Option.none
  | fuel + 1, n =>
    if deps n = ∅ then some 0
    else if Option.none ∈ (deps n).image (fun c => get_depthF deps fuel c) then
      Option.none
    else some (1 + (deps n).fold Nat.max 0
      (fun c => (get_depthF deps fuel c).getD 0))

/-- The output of `build_graph`, as lookup structures. -/
structure GraphData where
  ids   : List Nat
  ent   : Nat → Block
  deps  : Nat → Finset Nat
  typ   : Nat → String
  order : Nat → Nat
  depth : Nat → Nat

/-- `build_graph`.  `ids` is the key list of `id2ent` (duplicates
collapsed; its order is irrelevant downstream: it only feeds heaps and a
sort by the injective origin index).  The depth fuel `ents.length + 1`
bounds every dependency chain whenever the recursion terminates at all:
an acyclic chain visits pairwise-distinct identifiers, at most one of
which (the last) can lack a defining block. -/
def buildGraph (ents : List Block) : GraphData :=
  { ids := (ents.map Block.eid).dedup
    ent := entOf ents
    deps := depsOf ents
    typ := typOf ents
    order := originOf ents
    depth := fun n => (get_depthF (depsOf ents) (ents.length + 1) n).getD 0 }

/-! ## The scheduler (`topo_grouped`) -/

/-- The mutable state of the Kahn traversal.  `indeg` is the map of
still-unsatisfied dependency counts (`indeg[m] -= 1` can drive a count
below zero for identifiers released after they were already pushed,
hence `Int`). -/
structure SchedState where
  heap  : List Key4
  curTy : Option String
  indeg : Nat → Int
  out   : List Nat

/-- `push(n)`: the tuple pushed for identifier `n`, with `sameF`
computing the middle component from the current type (`0` constantly in
strict mode, where the heaps hold triples). -/
def mkEntry (g : GraphData) (sameF : Option String → String → Nat)
    (cur : Option String) (n : Nat) : Key4 :=
  (g.depth n, sameF cur (g.typ n), g.order n, n)

/-- One iteration of the scheduling loop: pop the entry chosen by the
active policy, set the current type to the popped record's kind, emit
it, decrement the unsatisfied count of every dependent (`rev`), and push
every dependent whose count just reached zero. -/
def schedStep (g : GraphData) (sameF : Option String → String → Nat)
    (pick : GraphData → SchedState → Option Key4) (s : SchedState) :
    SchedState :=
  match pick g s with
  | Option.none => s
  | some e =>
    let n := keyId e
    let cur : Option String := some (g.typ n)
    let indeg1 : Nat → Int :=
      fun m => if n ∈ g.deps m then s.indeg m - 1 else s.indeg m
    let newly :=
      g.ids.filter (fun m => decide (n ∈ g.deps m) && (indeg1 m == 0))
    { heap := s.heap.erase e ++ newly.map (mkEntry g sameF cur)
      curTy := cur
      indeg := indeg1
      out := s.out ++ [n] }

/-- The scheduling loop, as fuelled iteration.  Once the ready structure
is empty every further iteration is the identity, so iterating
`g.ids.length` times is the `while ready` loop: at most `g.ids.length`
pops can ever occur (each identifier is pushed at most once, proved
below). -/
def schedRun (g : GraphData) (sameF : Option String → String → Nat)
    (pick : GraphData → SchedState → Option Key4) :
    Nat → SchedState → SchedState
  | 0, s => s
  | fuel + 1, s => schedRun g sameF pick fuel (schedStep g sameF pick s)

/-- The initial state: all identifiers with no dependencies are pushed
with the current type still unset. -/
def schedInit (g : GraphData) (sameF : Option String → String → Nat) :
    SchedState :=
  { heap := (g.ids.filter (fun n => (g.deps n).card == 0)).map
      (mkEntry g sameF Option.none)
    curTy := Option.none
    indeg := fun n => ((g.deps n).card : Int)
    out := [] }

/-- Soft / none mode pop: minimum of the single ready heap. -/
def pickSingle (_ : GraphData) (s : SchedState) : Option Key4 :=
  heapMin s.heap

/-- Strict-mode pop after a kind switch: `min(ready_by_type,
key=...[0][:2])` selects the kind whose earliest-ready entry has the
smallest `(depth, order)` pair — i.e. the kind of the globally minimal
entry (origin indices of distinct ready identifiers are distinct, so no
tie between kinds can arise on reachable states) — and the pop then
takes that kind's minimal entry. -/
def pickSwitch (g : GraphData) (s : SchedState) : Option Key4 :=
  match heapMin s.heap with
  | Option.none => Option.none
  | some e0 =>
    heapMin (s.heap.filter (fun e => g.typ (keyId e) == g.typ (keyId e0)))

/-- Strict-mode pop: keep draining the current kind while its queue is
non-empty (`if cur_ty and ready_by_type.get(cur_ty)` — note that the
empty kind label is falsy in Python and always forces a switch),
otherwise switch kinds. -/
def pickStrict (g : GraphData) (s : SchedState) : Option Key4 :=
  match s.curTy with
  | some t =>
    if t ≠ "" ∧ s.heap.any (fun e => g.typ (keyId e) == t) then
      heapMin (s.heap.filter (fun e => g.typ (keyId e) == t))
    else pickSwitch g s
  | Option.none => pickSwitch g s

/-- `same = 0 if (group_mode != 'none' and cur_ty == typ[n]) else 1`,
evaluated at push time.  In strict mode the component is unused and is
uniformly `0` (the heaps hold triples). -/
def sameFor : GroupMode → Option String → String → Nat
  | GroupMode.strict, _, _ => 0
  | GroupMode.soft, cur, t => if cur = some t then 0 else 1
  | GroupMode.nogroup, _, _ => 1

def pickFor : GroupMode → GraphData → SchedState → Option Key4
  | GroupMode.strict => pickStrict
  | GroupMode.soft => pickSingle
  | GroupMode.nogroup => pickSingle

/-- The scheduler's identifier order: the Kahn pass followed by the
residual identifiers (unsatisfied counts still positive) in ascending
origin order. -/
def schedule (g : GraphData) (sameF : Option String → String → Nat)
    (pick : GraphData → SchedState → Option Key4) : List Nat :=
  let sF := schedRun g sameF pick g.ids.length (schedInit g sameF)
  sF.out ++ sortOrd g.order (g.ids.filter (fun k => decide (0 < sF.indeg k)))

/-- `topo_grouped`: build the graph, schedule, and return the blocks in
scheduled order (`[id2ent[i] for i in out + remaining]`). -/
def topo_grouped (ents : List Block) (mode : GroupMode) : List Block :=
  let g := buildGraph ents
  (schedule g (sameFor mode) (pickFor mode)).map g.ent

/-! ## Renumbering (`renumber_entities`) -/

/-- `old_to_new`, built by `for new_idx, blk in enumerate(blocks, 1)`:
maps an old identifier to one plus the position of the last block
carrying it as header. -/
def otnGo (old : Nat) (i : Nat) (acc : Option Nat) :
    List Block → Option Nat
  | [] => acc
  | b :: bs => otnGo old (i + 1) (if b.eid == old then some i else acc) bs

def oldToNew (blocks : List Block) (old : Nat) : Option Nat :=
  otnGo old 1 Option.none blocks

/-- `ID_RE.sub(replace_ids, blk)`: every identifier occurrence in the
block (header and body alike) is rewritten through the mapping;  a
missing mapping aborts the file (`KeyError`, the `DanglingReference`
failure). -/
def renumberBlock (otn : Nat → Option Nat) (b : Block) : Option Block :=
  match otn b.eid, b.refs.mapM otn with
  | some e, some rs => some ⟨e, b.typ, rs⟩
  | _, _ => Option.none

def renumber_entities (blocks : List Block) : Option (List Block) :=
  blocks.mapM (renumberBlock (oldToNew blocks))

/-! ## Directory scanning (`main`) -/

/-- `root.rglob("*.st?p")` applied to a file name, POSIX (case
sensitive) semantics: `*` matches any (possibly empty) run of
characters within the name, `.st` and `p` are literal, and `?` matches
exactly one arbitrary character; hence a name matches exactly when its
last five characters are `.`, `s`, `t`, anything, `p`. -/
def stepGlobMatch (name : String) : Bool :=
  let cs := name.data
  decide (5 ≤ cs.length) &&
    (match cs.drop (cs.length - 5) with
     | ['.', 's', 't', _, 'p'] => true
     | _ => false)

/-! ## Inputs used by concrete claims -/

/-- A two-record mutual reference cycle: `#1 = A(#2);  #2 = B(#1);`. -/
def cyc2 : List Block := [⟨1, "A", [2]⟩, ⟨2, "B", [1]⟩]

/-- Three kind-`PT` leaves at origin positions 0, 2, 4 interleaved with
two kind-`DIR` leaves at positions 1, 3 (the concrete clustering
scenario of the spec). -/
def entsPtDir : List Block :=
  [⟨1, "PT", []⟩, ⟨2, "DIR", []⟩, ⟨3, "PT", []⟩, ⟨4, "DIR", []⟩,
   ⟨5, "PT", []⟩]

/-- Three independent leaves of kinds `A`, `B`, `A` in origin order. -/
def entsABA : List Block := [⟨1, "A", []⟩, ⟨2, "B", []⟩, ⟨3, "A", []⟩]

/-- `#1` references the existing `#2`; `#2` references the nonexistent
`#99`.  The dependency graph (`1 → 2 → 99`) is acyclic. -/
def entsDangling : List Block := [⟨1, "A", [2]⟩, ⟨2, "B", [99]⟩]

/-- A single record referencing a nonexistent identifier. -/
def entsDangle1 : List Block := [⟨1, "FOO", [99]⟩]

/-- An acyclic file with a duplicated header identifier `#5`: the first
`#5` block references `#3`, the later one references nothing. -/
def entsDup : List Block :=
  [⟨2, "T2", []⟩, ⟨3, "T3", [2]⟩, ⟨4, "T4", [2]⟩, ⟨5, "T5", [3]⟩,
   ⟨5, "T5", []⟩]

/-! ## Properties of inputs -/

/-- Every reference occurrence names some record's header identifier. -/
def ClosedRefs (ents : List Block) : Prop :=
  ∀ b ∈ ents, ∀ r ∈ b.refs, r ∈ ents.map Block.eid

instance : DecidablePred ClosedRefs := fun ents => by
  unfold ClosedRefs; exact inferInstance

/-- The dependency graph is acyclic: some rank function strictly
decreases along every dependency edge. -/
def AcyclicG (ents : List Block) : Prop :=
  ∃ rank : Nat → Nat,
    ∀ b ∈ ents, ∀ m ∈ depsOf ents b.eid, rank m < rank b.eid

/-! ## Specification-side definitions for the soft-mode selection claim -/

/-- Modelled from the spec's description of soft mode for comparison
with the code: the candidate key `(depth, continuation penalty, origin
index)` where the penalty is `0` exactly when the candidate's kind
equals the kind of the most recently emitted record *at the moment of
selection* (the identifier is appended as the deterministic final
tie-break, as in every heap entry). -/
def selKey (g : GraphData) (cur : Option String) (n : Nat) : Key4 :=
  (g.depth n, if cur = some (g.typ n) then 0 else 1, g.order n, n)

/-- The record the spec's soft-mode policy would select among the ready
identifiers `l`, given the kind `cur` of the most recently emitted
record. -/
def selMin (g : GraphData) (cur : Option String) (l : List Nat) :
    Option Nat :=
  (heapMin (l.map (selKey g cur))).map keyId

/-! ## Push-time penalty machine (the amended soft-mode description) -/

/-- Modelled from the amended description of soft mode: the continuation
penalty of a candidate, fixed at the moment it enters the ready
structure, from the kind `lastTy` of the record emitted immediately
before that moment (`1` when nothing has been emitted yet). -/
def pushPen (lastTy : Option String) (t : String) : Nat :=
  if lastTy = some t then 0 else 1

/-- Soft-mode ready state in the amended description: bare identifiers
paired with their entry-time penalties. -/
structure PushState where
  ready  : List (Nat × Nat)
  lastTy : Option String
  indeg  : Nat → Int
  out    : List Nat

/-- The full comparison key of a ready candidate: depth and origin index
are looked up in the graph at selection time, the stored penalty sits in
between, and the identifier is the final tie-break. -/
def pushKey (g : GraphData) (p : Nat × Nat) : Key4 :=
  (g.depth p.1, p.2, g.order p.1, p.1)

/-- One step of the amended soft-mode description: emit the ready
candidate with the least `(depth, stored penalty, origin, id)` key,
remember its kind, and admit every newly released dependent with a
penalty computed against that kind. -/
def pushStep (g : GraphData) (s : PushState) : PushState :=
  match (heapMin (s.ready.map (pushKey g))).map
      (fun e => (keyId e, keySame e)) with
  | Option.none => s
  | some p =>
    let n := p.1
    let cur : Option String := some (g.typ n)
    let indeg1 : Nat → Int :=
      fun m => if n ∈ g.deps m then s.indeg m - 1 else s.indeg m
    let newly :=
      g.ids.filter (fun m => decide (n ∈ g.deps m) && (indeg1 m == 0))
    { ready := s.ready.erase p ++ newly.map (fun m => (m, pushPen cur (g.typ m)))
      lastTy := cur
      indeg := indeg1
      out := s.out ++ [n] }

def pushRun (g : GraphData) : Nat → PushState → PushState
  | 0, s => s
  | fuel + 1, s => pushRun g fuel (pushStep g s)

/-- The complete amended soft-mode scheduler, block for block the same
pipeline as `topo_grouped` with the `soft` policy. -/
def topoSoftPush (ents : List Block) : List Block :=
  let g := buildGraph ents
  let s0 : PushState :=
    { ready := (g.ids.filter (fun n => (g.deps n).card == 0)).map
        (fun m => (m, pushPen Option.none (g.typ m)))
      lastTy := Option.none
      indeg := fun n => ((g.deps n).card : Int)
      out := [] }
  let sF := pushRun g g.ids.length s0
  (sF.out ++ sortOrd g.order
    (g.ids.filter (fun k => decide (0 < sF.indeg k)))).map g.ent

/-! ## Auxiliary notions used by the verification -/

/-- The identifiers currently sitting in the ready structure. -/
def heapIds (s : SchedState) : List Nat := s.heap.map keyId

/-- The state after the scheduling loop has run to exhaustion. -/
def schedFinal (g : GraphData) (sameF : Option String → String → Nat)
    (pick : GraphData → SchedState → Option Key4) : SchedState :=
  schedRun g sameF pick g.ids.length (schedInit g sameF)

/-- Soundness interface of a pop policy: it returns a member of the
ready structure, it returns something whenever the structure is
non-empty, and nothing when it is empty. -/
structure PickOk (pick : GraphData → SchedState → Option Key4) : Prop where
  mem : ∀ g s e, pick g s = some e → e ∈ s.heap
  total : ∀ g s, s.heap ≠ [] → (pick g s).isSome
  empty : ∀ g s, s.heap = [] → pick g s = Option.none

/-- The loop invariant of the Kahn traversal. -/
structure SchedInv (g : GraphData) (s : SchedState) : Prop where
  outN   : s.out.Nodup
  outSub : ∀ n ∈ s.out, n ∈ g.ids
  hpN    : (heapIds s).Nodup
  hpSub  : ∀ e ∈ s.heap, keyId e ∈ g.ids
  hpOut  : ∀ e ∈ s.heap, keyId e ∉ s.out
  ideg   : ∀ m, s.indeg m =
    ((g.deps m).card : Int) -
      (((g.deps m).filter (fun x => x ∈ s.out)).card : Int)
  ready  : ∀ m ∈ g.ids,
    ((m ∈ s.out ∨ m ∈ heapIds s) ↔ ∀ x ∈ g.deps m, x ∈ s.out)
  keyok  : ∀ e ∈ s.heap, e.1 = g.depth (keyId e) ∧ keyOrd e = g.order (keyId e)
  topo   : ∀ i, ∀ h : i < s.out.length, ∀ x ∈ g.deps (s.out.get ⟨i, h⟩),
    x ∈ s.out.take i

/-- Re-keying of a heap entry when the origin indices of a later run
are substituted for the current ones: depth, penalty and identifier are
kept, the origin component is looked up afresh. -/
def remapKey (ord2 : Nat → Nat) (e : Key4) : Key4 :=
  (e.1, e.2.1, ord2 (keyId e), keyId e)

/-! ## Order and heap lemmas -/

theorem keyLtP_irrefl (a : Key4) : ¬ KeyLtP a a := by
  obtain ⟨a1, a2, a3, a4⟩ := a
  simp only [KeyLtP]
  omega

theorem keyLtP_trans {a b c : Key4} (h1 : KeyLtP a b) (h2 : KeyLtP b c) :
    KeyLtP a c := by
  obtain ⟨a1, a2, a3, a4⟩ := a
  obtain ⟨b1, b2, b3, b4⟩ := b
  obtain ⟨c1, c2, c3, c4⟩ := c
  simp only [KeyLtP] at *
  omega

theorem keyLtP_tri (a b : Key4) : KeyLtP a b ∨ a = b ∨ KeyLtP b a := by
  obtain ⟨a1, a2, a3, a4⟩ := a
  obtain ⟨b1, b2, b3, b4⟩ := b
  simp only [KeyLtP, Prod.mk.injEq]
  omega

theorem keyLt_iff {a b : Key4} : keyLt a b = true ↔ KeyLtP a b := by
  simp [keyLt]

theorem heapMin_eq_none {l : List Key4} :
    heapMin l = Option.none ↔ l = [] := by
  cases l with
  | nil => simp [heapMin]
  | cons e es =>
    simp only [heapMin]
    cases h : heapMin es with
    | none => simp
    | some m =>
      constructor
      · intro hc
        by_cases hk : keyLt e m <;> simp [hk] at hc
      · intro hc
        exact absurd hc (List.cons_ne_nil e es)

theorem heapMin_mem : ∀ {l : List Key4} {e : Key4},
    heapMin l = some e → e ∈ l := by
  intro l
  induction l with
  | nil => intro e h; simp [heapMin] at h
  | cons a as ih =>
    intro e h
    simp only [heapMin] at h
    cases hm : heapMin as with
    | none =>
      rw [hm] at h
      simp only [Option.some.injEq] at h
      simp [h]
    | some m =>
      rw [hm] at h
      by_cases hk : keyLt a m
      · simp only [if_pos hk, Option.some.injEq] at h
        simp [h]
      · simp only [if_neg hk, Option.some.injEq] at h
        subst h
        exact List.mem_cons_of_mem a (ih hm)

theorem heapMin_le : ∀ {l : List Key4} {e : Key4},
    heapMin l = some e → ∀ x ∈ l, ¬ KeyLtP x e := by
  intro l
  induction l with
  | nil => intro e h; simp [heapMin] at h
  | cons a as ih =>
    intro e h x hx
    simp only [heapMin] at h
    cases hm : heapMin as with
    | none =>
      rw [hm] at h
      simp only [Option.some.injEq] at h
      subst h
      rcases List.mem_cons.mp hx with rfl | hx'
      · exact keyLtP_irrefl x
      · rw [heapMin_eq_none.mp hm] at hx'
        simp at hx'
    | some m =>
      rw [hm] at h
      by_cases hk : keyLt a m
      · simp only [if_pos hk, Option.some.injEq] at h
        subst h
        rcases List.mem_cons.mp hx with rfl | hx'
        · exact keyLtP_irrefl x
        · intro hxa
          exact ih hm x hx' (keyLtP_trans hxa (keyLt_iff.mp hk))
      · simp only [if_neg hk, Option.some.injEq] at h
        subst h
        rcases List.mem_cons.mp hx with rfl | hx'
        · intro hxe
          exact hk (keyLt_iff.mpr hxe)
        · exact ih hm x hx'

theorem heapMin_eq_some_of {l : List Key4} {e : Key4} (he : e ∈ l)
    (hmin : ∀ x ∈ l, x ≠ e → KeyLtP e x) : heapMin l = some e := by
  cases h : heapMin l with
  | none =>
    rw [heapMin_eq_none.mp h] at he
    simp at he
  | some m =>
    by_cases hme : m = e
    · rw [hme]
    · exact absurd (hmin m (heapMin_mem h) hme) (heapMin_le h e he)

theorem insertOrd_perm (ord : Nat → Nat) (a : Nat) (l : List Nat) :
    (insertOrd ord a l).Perm (a :: l) := by
  induction l with
  | nil => simp [insertOrd]
  | cons b bs ih =>
    simp only [insertOrd]
    by_cases h : ord a ≤ ord b
    · simp [h]
    · simp only [if_neg h]
      exact (ih.cons b).trans (List.Perm.swap a b bs)

theorem sortOrd_perm (ord : Nat → Nat) (l : List Nat) :
    (sortOrd ord l).Perm l := by
  induction l with
  | nil => simp [sortOrd]
  | cons a as ih => exact (insertOrd_perm ord a (sortOrd ord as)).trans (ih.cons a)

theorem insertOrd_pairwise (ord : Nat → Nat) (a : Nat) {l : List Nat}
    (h : l.Pairwise (fun x y => ord x ≤ ord y)) :
    (insertOrd ord a l).Pairwise (fun x y => ord x ≤ ord y) := by
  induction l with
  | nil => simp [insertOrd]
  | cons b bs ih =>
    simp only [insertOrd]
    by_cases hab : ord a ≤ ord b
    · rw [if_pos hab]
      refine List.Pairwise.cons ?_ h
      intro x hx
      rcases List.mem_cons.mp hx with rfl | hx'
      · exact hab
      · exact le_trans hab ((List.pairwise_cons.mp h).1 x hx')
    · rw [if_neg hab]
      have hba : ord b ≤ ord a := le_of_not_le hab
      refine List.Pairwise.cons ?_ (ih (List.pairwise_cons.mp h).2)
      intro x hx
      rcases List.mem_cons.mp ((insertOrd_perm ord a bs).mem_iff.mp hx) with
        rfl | hx'
      · exact hba
      · exact (List.pairwise_cons.mp h).1 x hx'

theorem sortOrd_pairwise (ord : Nat → Nat) (l : List Nat) :
    (sortOrd ord l).Pairwise (fun x y => ord x ≤ ord y) := by
  induction l with
  | nil => simp [sortOrd]
  | cons a as ih => exact insertOrd_pairwise ord a ih

/-- Two duplicate-free lists with the same members, both strictly sorted
by the same injective-on-members key, are equal. -/
theorem sorted_key_eq (key : Nat → Nat) : ∀ {l1 l2 : List Nat},
    l1.Pairwise (fun x y => key x < key y) →
    l2.Pairwise (fun x y => key x < key y) →
    (∀ a, a ∈ l1 ↔ a ∈ l2) → l1 = l2 := by
  intro l1
  induction l1 with
  | nil =>
    intro l2 _ _ hm
    cases l2 with
    | nil => rfl
    | cons b bs => exact absurd ((hm b).mpr (List.mem_cons_self b bs)) (by simp)
  | cons a as ih =>
    intro l2 h1 h2 hm
    cases l2 with
    | nil => exact absurd ((hm a).mp (List.mem_cons_self a as)) (by simp)
    | cons b bs =>
      have hab : a = b := by
        rcases List.mem_cons.mp ((hm a).mp (List.mem_cons_self a as)) with h | h
        · exact h
        · rcases List.mem_cons.mp ((hm b).mpr (List.mem_cons_self b bs)) with h' | h'
          · exact h'.symm
          · have h1' := (List.pairwise_cons.mp h1).1 b h'
            have h2' := (List.pairwise_cons.mp h2).1 a h
            omega
      subst hab
      have hmem : ∀ x, x ∈ as ↔ x ∈ bs := by
        intro x
        constructor
        · intro hx
          rcases List.mem_cons.mp ((hm x).mp (List.mem_cons_of_mem a hx)) with h | h
          · subst h
            exact absurd ((List.pairwise_cons.mp h1).1 x hx) (lt_irrefl _)
          · exact h
        · intro hx
          rcases List.mem_cons.mp ((hm x).mpr (List.mem_cons_of_mem a hx)) with h | h
          · subst h
            exact absurd ((List.pairwise_cons.mp h2).1 x hx) (lt_irrefl _)
          · exact h
      rw [ih (List.pairwise_cons.mp h1).2 (List.pairwise_cons.mp h2).2 hmem]

/-- `map` commutes with `erase` when the function is injective on the
list's members. -/
theorem map_erase_injOn {α β : Type} [DecidableEq α] [DecidableEq β]
    (f : α → β) : ∀ (l : List α) (e : α),
    (∀ x ∈ l, f x = f e → x = e) →
    (l.erase e).map f = (l.map f).erase (f e) := by
  intro l
  induction l with
  | nil => intro e _; simp
  | cons b bs ih =>
    intro e hinj
    by_cases hbe : b = e
    · subst hbe
      rw [List.erase_cons_head, List.map_cons, List.erase_cons_head]
    · have hfbe : f b ≠ f e := fun hf => hbe (hinj b (List.mem_cons_self b bs) hf)
      rw [List.erase_cons_tail, List.map_cons, List.map_cons, List.erase_cons_tail,
        ih e (fun x hx => hinj x (List.mem_cons_of_mem b hx))]
      · simp [hfbe]
      · simp [hbe]

/-- Members of a list mapping without duplicates are separated by the
mapping. -/
theorem nodup_map_inj {α β : Type} (f : α → β) {l : List α}
    (h : (l.map f).Nodup) : ∀ x ∈ l, ∀ y ∈ l, f x = f y → x = y :=
  fun _ hx _ hy hf => List.inj_on_of_nodup_map h hx hy hf

/-! ## Basic facts about `build_graph`'s lookup structures -/

theorem mem_depsOf {ents : List Block} {n x : Nat} :
    x ∈ depsOf ents n ↔ (∃ b ∈ ents, b.eid = n ∧ x ∈ b.refs) ∧ x ≠ n := by
  unfold depsOf
  rw [List.mem_toFinset, List.mem_filter]
  simp only [List.mem_flatMap, List.mem_filter, beq_iff_eq, decide_eq_true_eq]
  tauto

theorem filter_eid_ne_nil {ents : List Block} {n : Nat}
    (h : n ∈ ents.map Block.eid) : ents.filter (fun b => b.eid == n) ≠ [] := by
  obtain ⟨b, hb, heq⟩ := List.mem_map.mp h
  exact List.ne_nil_of_mem (List.mem_filter.mpr ⟨hb, by simpa using heq⟩)

theorem entOf_mem {ents : List Block} {n : Nat}
    (h : n ∈ ents.map Block.eid) : entOf ents n ∈ ents := by
  have hne := filter_eid_ne_nil h
  unfold entOf
  rw [List.getLast?_eq_getLast_of_ne_nil hne]
  exact (List.mem_filter.mp (List.getLast_mem hne)).1

theorem entOf_eid {ents : List Block} {n : Nat}
    (h : n ∈ ents.map Block.eid) : (entOf ents n).eid = n := by
  have hne := filter_eid_ne_nil h
  have h2 := (List.mem_filter.mp (List.getLast_mem hne)).2
  simp only [beq_iff_eq] at h2
  unfold entOf
  rw [List.getLast?_eq_getLast_of_ne_nil hne]
  exact h2

theorem filter_eid_unique {ents : List Block}
    (hN : (ents.map Block.eid).Nodup) {b : Block} (hb : b ∈ ents) :
    ents.filter (fun x => x.eid == b.eid) = [b] := by
  induction ents with
  | nil => simp at hb
  | cons a as ih =>
    rw [List.map_cons, List.nodup_cons] at hN
    rcases List.mem_cons.mp hb with rfl | hb'
    · have : as.filter (fun x => x.eid == b.eid) = [] := by
        rw [List.filter_eq_nil_iff]
        intro x hx
        simp only [beq_iff_eq]
        intro heq
        exact hN.1 (List.mem_map.mpr ⟨x, hx, heq⟩)
      simp [List.filter_cons, this]
    · have hne : a.eid ≠ b.eid := by
        intro heq
        exact hN.1 (heq ▸ List.mem_map.mpr ⟨b, hb', rfl⟩)
      rw [List.filter_cons]
      simp only [beq_iff_eq, hne, decide_eq_true_eq, if_neg hne]
      exact ih hN.2 hb'

theorem entOf_self {ents : List Block} (hN : (ents.map Block.eid).Nodup)
    {b : Block} (hb : b ∈ ents) : entOf ents b.eid = b := by
  unfold entOf
  rw [filter_eid_unique hN hb]
  rfl

theorem ids_nodup (ents : List Block) : (buildGraph ents).ids.Nodup :=
  List.nodup_dedup _

theorem mem_ids {ents : List Block} {n : Nat} :
    n ∈ (buildGraph ents).ids ↔ n ∈ ents.map Block.eid :=
  List.mem_dedup

theorem originGo_append (n : Nat) (l1 l2 : List Block) :
    ∀ i acc, originGo n i acc (l1 ++ l2) =
      originGo n (i + l1.length) (originGo n i acc l1) l2 := by
  induction l1 with
  | nil => intro i acc; simp [originGo]
  | cons b bs ih =>
    intro i acc
    have h1 : originGo n i acc (b :: (bs ++ l2))
        = originGo n (i + 1) (if b.eid == n then i else acc) (bs ++ l2) := rfl
    rw [List.cons_append, h1, ih]
    have h2 : originGo n i acc (b :: bs)
        = originGo n (i + 1) (if b.eid == n then i else acc) bs := rfl
    rw [h2]
    have h3 : i + 1 + bs.length = i + (b :: bs).length := by
      simp only [List.length_cons]
      omega
    rw [h3]

theorem originGo_no_hit (n : Nat) :
    ∀ (l : List Block) i acc, (∀ b ∈ l, b.eid ≠ n) →
      originGo n i acc l = acc := by
  intro l
  induction l with
  | nil => intro i acc _; rfl
  | cons b bs ih =>
    intro i acc h
    simp only [originGo]
    have hb : b.eid ≠ n := h b (List.mem_cons_self b bs)
    rw [if_neg (by simpa using hb)]
    exact ih (i + 1) acc (fun x hx => h x (List.mem_cons_of_mem b hx))

theorem originOf_get {ents : List Block} (hN : (ents.map Block.eid).Nodup)
    (i : Nat) (hi : i < ents.length) :
    originOf ents (ents.get ⟨i, hi⟩).eid = i := by
  set n := (ents.get ⟨i, hi⟩).eid with hn
  have hsplit : ents = ents.take i ++ ents.get ⟨i, hi⟩ :: ents.drop (i + 1) := by
    rw [List.get_eq_getElem, ← List.drop_eq_getElem_cons hi,
      List.take_append_drop]
  have hlen : (ents.take i).length = i := List.length_take_of_le (le_of_lt hi)
  have hno : ∀ b ∈ ents.drop (i + 1), b.eid ≠ n := by
    intro b hb heq
    have hmap : (ents.map Block.eid).Nodup := hN
    rw [hsplit] at hmap
    rw [List.map_append, List.map_cons] at hmap
    have h2 := (List.Nodup.of_append_right hmap)
    rw [List.nodup_cons] at h2
    exact h2.1 (List.mem_map.mpr ⟨b, hb, heq⟩)
  calc originOf ents n
      = originGo n 0 0 (ents.take i ++ ents.get ⟨i, hi⟩ :: ents.drop (i + 1)) := by
        rw [originOf, ← hsplit]
    _ = originGo n (0 + i) (originGo n 0 0 (ents.take i))
          (ents.get ⟨i, hi⟩ :: ents.drop (i + 1)) := by
        rw [originGo_append, hlen]
    _ = i := by
        simp only [originGo, Nat.zero_add, hn, beq_self_eq_true, if_pos]
        exact originGo_no_hit n _ _ _ hno

/-! ## Policy soundness -/

theorem pickSingle_ok : PickOk pickSingle := by
  refine ⟨?_, ?_, ?_⟩
  · intro g s e h
    exact heapMin_mem h
  · intro g s h
    cases hm : heapMin s.heap with
    | none => exact absurd (heapMin_eq_none.mp hm) h
    | some e => simp [pickSingle, hm]
  · intro g s h
    simp [pickSingle, h, heapMin]

theorem pickSwitch_mem {g : GraphData} {s : SchedState} {e : Key4}
    (h : pickSwitch g s = some e) : e ∈ s.heap := by
  unfold pickSwitch at h
  cases hm : heapMin s.heap with
  | none => rw [hm] at h; simp at h
  | some e0 =>
    rw [hm] at h
    exact (List.mem_filter.mp (heapMin_mem h)).1

theorem isSome_heapMin {l : List Key4} (h : l ≠ []) :
    (heapMin l).isSome := by
  cases hm : heapMin l with
  | none => exact absurd (heapMin_eq_none.mp hm) h
  | some e => simp

theorem pickSwitch_total {g : GraphData} {s : SchedState}
    (h : s.heap ≠ []) : (pickSwitch g s).isSome := by
  unfold pickSwitch
  cases hm : heapMin s.heap with
  | none => exact absurd (heapMin_eq_none.mp hm) h
  | some e0 =>
    have he0 : e0 ∈ s.heap.filter
        (fun e => g.typ (keyId e) == g.typ (keyId e0)) :=
      List.mem_filter.mpr ⟨heapMin_mem hm, by simp⟩
    have hne := List.ne_nil_of_mem he0
    cases hm2 : heapMin (s.heap.filter
        (fun e => g.typ (keyId e) == g.typ (keyId e0))) with
    | none => exact absurd (heapMin_eq_none.mp hm2) hne
    | some m => simp [hm, hm2]

theorem pickStrict_ok : PickOk pickStrict := by
  refine ⟨?_, ?_, ?_⟩
  · intro g s e h
    unfold pickStrict at h
    split at h
    · split at h
      · exact (List.mem_filter.mp (heapMin_mem h)).1
      · exact pickSwitch_mem h
    · exact pickSwitch_mem h
  · intro g s h
    unfold pickStrict
    split
    next =>
      split
      next hcd =>
        obtain ⟨e0, he0, ht⟩ := List.any_eq_true.mp hcd.2
        exact isSome_heapMin
          (List.ne_nil_of_mem (List.mem_filter.mpr ⟨he0, ht⟩))
      next => exact pickSwitch_total h
    next => exact pickSwitch_total h
  · intro g s h
    have hm : heapMin s.heap = Option.none := heapMin_eq_none.mpr h
    unfold pickStrict pickSwitch
    split
    · split
      next hcd =>
        rw [h] at hcd
        simp at hcd
      next =>
        rw [hm]
    · rw [hm]

theorem pickFor_ok (mode : GroupMode) : PickOk (pickFor mode) := by
  cases mode with
  | strict => exact pickStrict_ok
  | soft => exact pickSingle_ok
  | nogroup => exact pickSingle_ok

/-! ## Elementary step lemmas -/

theorem schedStep_of_none {g : GraphData} {sameF : Option String → String → Nat}
    {pick : GraphData → SchedState → Option Key4} {s : SchedState}
    (h : pick g s = Option.none) : schedStep g sameF pick s = s := by
  simp [schedStep, h]

theorem schedStep_of_empty {g : GraphData}
    {sameF : Option String → String → Nat}
    {pick : GraphData → SchedState → Option Key4} (hpk : PickOk pick)
    {s : SchedState} (h : s.heap = []) : schedStep g sameF pick s = s :=
  schedStep_of_none (hpk.empty g s h)

theorem schedRun_of_empty {g : GraphData}
    {sameF : Option String → String → Nat}
    {pick : GraphData → SchedState → Option Key4} (hpk : PickOk pick)
    {s : SchedState} (h : s.heap = []) :
    ∀ fuel, schedRun g sameF pick fuel s = s := by
  intro fuel
  induction fuel with
  | zero => rfl
  | succ f ih =>
    show schedRun g sameF pick f (schedStep g sameF pick s) = s
    rw [schedStep_of_empty hpk h]
    exact ih

theorem schedStep_out_of_some {g : GraphData}
    {sameF : Option String → String → Nat}
    {pick : GraphData → SchedState → Option Key4} {s : SchedState} {e : Key4}
    (h : pick g s = some e) :
    (schedStep g sameF pick s).out = s.out ++ [keyId e] := by
  simp [schedStep, h]

theorem schedRun_out_extend {g : GraphData}
    {sameF : Option String → String → Nat}
    {pick : GraphData → SchedState → Option Key4} :
    ∀ (fuel : Nat) (s : SchedState), ∃ t : List Nat,
      (schedRun g sameF pick fuel s).out = s.out ++ t := by
  intro fuel
  induction fuel with
  | zero => intro s; exact ⟨[], by simp [schedRun]⟩
  | succ f ih =>
    intro s
    obtain ⟨t, ht⟩ := ih (schedStep g sameF pick s)
    cases hp : pick g s with
    | none =>
      refine ⟨t, ?_⟩
      show (schedRun g sameF pick f (schedStep g sameF pick s)).out = _
      rw [ht, schedStep_of_none hp]
    | some e =>
      refine ⟨keyId e :: t, ?_⟩
      show (schedRun g sameF pick f (schedStep g sameF pick s)).out = _
      rw [ht, schedStep_out_of_some hp]
      simp

/-- Counting helper: appending a freshly emitted identifier to the
output bumps the satisfied-dependency count of `m` exactly when `m`
depends on it. -/
theorem card_filter_emit {d : Finset Nat} {out : List Nat} {n : Nat}
    (hn : n ∉ out) :
    ((d.filter (fun x => x ∈ out ++ [n])).card : Int)
      = (d.filter (fun x => x ∈ out)).card + (if n ∈ d then 1 else 0) := by
  have h1 : d.filter (fun x => x ∈ out ++ [n])
      = d.filter (fun x => x ∈ out) ∪ d.filter (fun x => x = n) := by
    rw [← Finset.filter_or]
    apply Finset.filter_congr
    intro x _
    simp [List.mem_append]
  have h2 : Disjoint (d.filter (fun x => x ∈ out)) (d.filter (fun x => x = n)) := by
    apply Finset.disjoint_left.mpr
    intro x hx1 hx2
    simp only [Finset.mem_filter] at hx1 hx2
    exact hn (hx2.2 ▸ hx1.2)
  rw [h1, Finset.card_union_of_disjoint h2, Finset.filter_eq']
  by_cases hd : n ∈ d
  · simp [hd]
  · simp [hd]

theorem schedStep_some {g : GraphData} {sameF : Option String → String → Nat}
    {pick : GraphData → SchedState → Option Key4} {s : SchedState} {e : Key4}
    (hp : pick g s = some e) :
    schedStep g sameF pick s =
      { heap := s.heap.erase e ++ (g.ids.filter (fun m =>
            decide (keyId e ∈ g.deps m) &&
              ((if keyId e ∈ g.deps m then s.indeg m - 1 else s.indeg m) == 0))).map
          (mkEntry g sameF (some (g.typ (keyId e))))
        curTy := some (g.typ (keyId e))
        indeg := fun m => if keyId e ∈ g.deps m then s.indeg m - 1 else s.indeg m
        out := s.out ++ [keyId e] } := by
  simp [schedStep, hp]

theorem mkEntry_keyId (g : GraphData) (sameF : Option String → String → Nat)
    (cur : Option String) (n : Nat) : keyId (mkEntry g sameF cur n) = n := rfl

theorem map_keyId_mkEntry (g : GraphData)
    (sameF : Option String → String → Nat) (cur : Option String)
    (l : List Nat) : (l.map (mkEntry g sameF cur)).map keyId = l := by
  rw [List.map_map]
  apply List.map_id''
  intro x
  rfl

/-- `map` commutes with `erase` on heap entries when `keyId` separates
the list's members. -/
theorem map_erase_key : ∀ (l : List Key4) (e : Key4),
    (∀ x ∈ l, keyId x = keyId e → x = e) →
    (l.erase e).map keyId = (l.map keyId).erase (keyId e) := by
  intro l
  induction l with
  | nil => intro e _; simp
  | cons b bs ih =>
    intro e hinj
    by_cases hbe : b = e
    · subst hbe
      rw [List.erase_cons_head, List.map_cons, List.erase_cons_head]
    · have hfbe : keyId b ≠ keyId e :=
        fun hf => hbe (hinj b (List.mem_cons_self b bs) hf)
      rw [List.erase_cons_tail, List.map_cons, List.map_cons,
        List.erase_cons_tail,
        ih e (fun x hx => hinj x (List.mem_cons_of_mem b hx))]
      · simp [hfbe]
      · simp [hbe]

theorem schedStep_inv {g : GraphData} {sameF : Option String → String → Nat}
    {pick : GraphData → SchedState → Option Key4}
    (hids : g.ids.Nodup) (hself : ∀ m, m ∉ g.deps m) (hpk : PickOk pick)
    {s : SchedState} (hs : SchedInv g s) :
    SchedInv g (schedStep g sameF pick s) := by
  cases hp : pick g s with
  | none => rw [schedStep_of_none hp]; exact hs
  | some e =>
    have he : e ∈ s.heap := hpk.mem g s e hp
    have hnids : keyId e ∈ g.ids := hs.hpSub e he
    have hnout : keyId e ∉ s.out := hs.hpOut e he
    have hnheap : keyId e ∈ heapIds s := List.mem_map.mpr ⟨e, he, rfl⟩
    have hdepsn : ∀ x ∈ g.deps (keyId e), x ∈ s.out :=
      (hs.ready (keyId e) hnids).mp (Or.inr hnheap)
    rw [schedStep_some hp]
    set n := keyId e with hn
    set indeg1 : Nat → Int :=
      fun m => if n ∈ g.deps m then s.indeg m - 1 else s.indeg m with hi1
    set newly := g.ids.filter (fun m =>
      decide (n ∈ g.deps m) && (indeg1 m == 0)) with hnw
    set out' := s.out ++ [n] with ho'
    have hideg1 : ∀ m, indeg1 m = ((g.deps m).card : Int) -
        (((g.deps m).filter (fun x => x ∈ out')).card : Int) := by
      intro m
      rw [hi1]
      simp only []
      rw [card_filter_emit hnout, hs.ideg m]
      by_cases hd : n ∈ g.deps m
      · rw [if_pos hd, if_pos hd]
        ring
      · rw [if_neg hd, if_neg hd]
        ring
    have hzero : ∀ m, indeg1 m = 0 ↔ ∀ x ∈ g.deps m, x ∈ out' := by
      intro m
      rw [hideg1 m, sub_eq_zero]
      constructor
      · intro hc
        exact Finset.card_filter_eq_iff.mp (Nat.cast_inj.mp hc).symm
      · intro hall
        rw [Finset.card_filter_eq_iff.mpr hall]
    have hnewly : ∀ m, m ∈ newly ↔ m ∈ g.ids ∧ n ∈ g.deps m ∧ indeg1 m = 0 := by
      intro m
      rw [hnw, List.mem_filter]
      simp only [Bool.and_eq_true, decide_eq_true_eq, beq_iff_eq]
    have hfresh : ∀ m ∈ newly, m ∉ s.out ∧ m ∉ heapIds s ∧ m ≠ n := by
      intro m hm
      obtain ⟨hmid, hmd, hmz⟩ := (hnewly m).mp hm
      have hmn : m ≠ n := by
        rintro rfl
        exact hself n hmd
      have hnot : ¬ (m ∈ s.out ∨ m ∈ heapIds s) := by
        intro hc
        exact hnout (((hs.ready m hmid).mp hc) n hmd)
      exact ⟨fun h1 => hnot (Or.inl h1), fun h2 => hnot (Or.inr h2), hmn⟩
    have hinj : ∀ x ∈ s.heap, keyId x = keyId e → x = e :=
      fun x hx hfx => nodup_map_inj keyId hs.hpN x hx e he hfx
    have herase : (s.heap.erase e).map keyId = (heapIds s).erase n :=
      map_erase_key s.heap e hinj
    have hhids : heapIds
        { heap := s.heap.erase e ++ newly.map (mkEntry g sameF (some (g.typ n)))
          curTy := some (g.typ n), indeg := indeg1, out := out' } =
        (heapIds s).erase n ++ newly := by
      show (s.heap.erase e ++ newly.map (mkEntry g sameF (some (g.typ n)))).map
        keyId = (heapIds s).erase n ++ newly
      rw [List.map_append, herase, map_keyId_mkEntry]
    constructor
    case outN =>
      rw [List.nodup_append]
      refine ⟨hs.outN, List.nodup_singleton n, ?_⟩
      intro x hx hx2
      rw [List.mem_singleton] at hx2
      exact hnout (hx2 ▸ hx)
    case outSub =>
      intro m hm
      rcases List.mem_append.mp hm with h1 | h2
      · exact hs.outSub m h1
      · rw [List.mem_singleton] at h2
        exact h2 ▸ hnids
    case hpN =>
      rw [hhids, List.nodup_append]
      refine ⟨hs.hpN.erase n, hids.filter _, ?_⟩
      intro x hx1 hx2
      exact (hfresh x hx2).2.1 (List.mem_of_mem_erase hx1)
    case hpSub =>
      intro e' he'
      rcases List.mem_append.mp he' with h1 | h2
      · exact hs.hpSub e' (List.mem_of_mem_erase h1)
      · obtain ⟨m, hm, rfl⟩ := List.mem_map.mp h2
        rw [mkEntry_keyId]
        exact ((hnewly m).mp hm).1
    case hpOut =>
      intro e' he'
      rcases List.mem_append.mp he' with h1 | h2
      · have hmem : keyId e' ∈ (heapIds s).erase n := by
          rw [← herase]
          exact List.mem_map.mpr ⟨e', h1, rfl⟩
        have hme := (hs.hpN.mem_erase_iff).mp hmem
        intro hc
        rcases List.mem_append.mp hc with hc1 | hc2
        · exact hs.hpOut e' (List.mem_of_mem_erase h1) hc1
        · rw [List.mem_singleton] at hc2
          exact hme.1 hc2
      · obtain ⟨m, hm, rfl⟩ := List.mem_map.mp h2
        rw [mkEntry_keyId]
        obtain ⟨hout, _, hne⟩ := hfresh m hm
        intro hc
        rcases List.mem_append.mp hc with hc1 | hc2
        · exact hout hc1
        · rw [List.mem_singleton] at hc2
          exact hne hc2
    case ideg => exact hideg1
    case ready =>
      intro m hmid
      rw [hhids]
      constructor
      · intro hc
        rcases hc with hc | hc
        · rcases List.mem_append.mp hc with h1 | h2
          · intro x hx
            exact List.mem_append.mpr
              (Or.inl (((hs.ready m hmid).mp (Or.inl h1)) x hx))
          · rw [List.mem_singleton] at h2
            subst h2
            intro x hx
            exact List.mem_append.mpr (Or.inl (hdepsn x hx))
        · rcases List.mem_append.mp hc with h1 | h2
          · intro x hx
            exact List.mem_append.mpr (Or.inl
              (((hs.ready m hmid).mp (Or.inr (List.mem_of_mem_erase h1))) x hx))
          · exact (hzero m).mp ((hnewly m).mp h2).2.2
      · intro hall
        by_cases hnm : n ∈ g.deps m
        · right
          exact List.mem_append.mpr (Or.inr ((hnewly m).mpr
            ⟨hmid, hnm, (hzero m).mpr hall⟩))
        · have hsub : ∀ x ∈ g.deps m, x ∈ s.out := by
            intro x hx
            rcases List.mem_append.mp (hall x hx) with h1 | h2
            · exact h1
            · rw [List.mem_singleton] at h2
              exact absurd (h2 ▸ hx) hnm
          rcases (hs.ready m hmid).mpr hsub with h1 | h2
          · exact Or.inl (List.mem_append.mpr (Or.inl h1))
          · by_cases hmn : m = n
            · exact Or.inl (List.mem_append.mpr (Or.inr
                (List.mem_singleton.mpr hmn)))
            · exact Or.inr (List.mem_append.mpr (Or.inl
                ((hs.hpN.mem_erase_iff).mpr ⟨hmn, h2⟩)))
    case keyok =>
      intro e' he'
      rcases List.mem_append.mp he' with h1 | h2
      · exact hs.keyok e' (List.mem_of_mem_erase h1)
      · obtain ⟨m, hm, rfl⟩ := List.mem_map.mp h2
        exact ⟨rfl, rfl⟩
    case topo =>
      intro i hilt x hx
      have hilen : i < s.out.length + 1 := by
        have := hilt
        simp only [ho', List.length_append, List.length_singleton] at this
        exact this
      by_cases hi : i < s.out.length
      · have hget : out'.get ⟨i, hilt⟩ = s.out.get ⟨i, hi⟩ := by
          simp only [ho', List.get_eq_getElem]
          exact List.getElem_append_left hi
        have htake : out'.take i = s.out.take i := by
          rw [ho']
          exact List.take_append_of_le_length (le_of_lt hi)
        rw [htake]
        exact hs.topo i hi x (hget ▸ hx)
      · have hieq : i = s.out.length := by omega
        have hget : out'.get ⟨i, hilt⟩ = n := by
          simp only [ho', List.get_eq_getElem]
          exact List.getElem_concat_length s.out n i hieq _
        have htake : out'.take i = s.out := by
          rw [ho', hieq, List.take_append_of_le_length (le_refl _),
            List.take_length]
        rw [htake]
        exact hdepsn x (hget ▸ hx)

theorem schedInit_inv {g : GraphData} {sameF : Option String → String → Nat}
    (hids : g.ids.Nodup) : SchedInv g (schedInit g sameF) := by
  have hh : heapIds (schedInit g sameF)
      = g.ids.filter (fun n => (g.deps n).card == 0) :=
    map_keyId_mkEntry g sameF Option.none _
  constructor
  case outN => exact List.nodup_nil
  case outSub => intro m hm; simp [schedInit] at hm
  case hpN => rw [hh]; exact hids.filter _
  case hpSub =>
    intro e he
    obtain ⟨m, hm, rfl⟩ := List.mem_map.mp he
    rw [mkEntry_keyId]
    exact (List.mem_filter.mp hm).1
  case hpOut => intro e _ hc; simp [schedInit] at hc
  case ideg =>
    intro m
    show ((g.deps m).card : Int)
      = ((g.deps m).card : Int)
        - (((g.deps m).filter (fun x => x ∈ ([] : List Nat))).card : Int)
    have h0 : (g.deps m).filter (fun x => x ∈ ([] : List Nat)) = ∅ := by
      apply Finset.filter_false_of_mem
      intro x _
      simp
    rw [h0]
    simp
  case ready =>
    intro m hm
    show (m ∈ ([] : List Nat) ∨ m ∈ heapIds (schedInit g sameF))
      ↔ ∀ x ∈ g.deps m, x ∈ ([] : List Nat)
    rw [hh]
    constructor
    · intro hc
      rcases hc with hc | hc
      · simp at hc
      · have h2 := (List.mem_filter.mp hc).2
        rw [beq_iff_eq, Finset.card_eq_zero] at h2
        intro x hx
        rw [h2] at hx
        simp at hx
    · intro hall
      right
      refine List.mem_filter.mpr ⟨hm, ?_⟩
      rw [beq_iff_eq, Finset.card_eq_zero]
      by_contra hne
      obtain ⟨x, hx⟩ := Finset.nonempty_iff_ne_empty.mpr hne
      simpa using hall x hx
  case keyok =>
    intro e he
    obtain ⟨m, hm, rfl⟩ := List.mem_map.mp he
    exact ⟨rfl, rfl⟩
  case topo =>
    intro i hilt
    simp [schedInit] at hilt

theorem schedRun_inv {g : GraphData} {sameF : Option String → String → Nat}
    {pick : GraphData → SchedState → Option Key4}
    (hids : g.ids.Nodup) (hself : ∀ m, m ∉ g.deps m) (hpk : PickOk pick) :
    ∀ (fuel : Nat) {s : SchedState}, SchedInv g s →
      SchedInv g (schedRun g sameF pick fuel s) := by
  intro fuel
  induction fuel with
  | zero => intro s hs; exact hs
  | succ f ih =>
    intro s hs
    exact ih (schedStep_inv hids hself hpk hs)

theorem inv_length {g : GraphData} {s : SchedState} (hs : SchedInv g s) :
    s.out.length + s.heap.length ≤ g.ids.length := by
  have hN : (s.out ++ heapIds s).Nodup := by
    rw [List.nodup_append]
    refine ⟨hs.outN, hs.hpN, ?_⟩
    intro x hx1 hx2
    obtain ⟨e, he, rfl⟩ := List.mem_map.mp hx2
    exact hs.hpOut e he hx1
  have hsub : (s.out ++ heapIds s) ⊆ g.ids := by
    intro x hx
    rcases List.mem_append.mp hx with h1 | h2
    · exact hs.outSub x h1
    · obtain ⟨e, he, rfl⟩ := List.mem_map.mp h2
      exact hs.hpSub e he
  have h1 : (s.out ++ heapIds s).toFinset.card = s.out.length + s.heap.length := by
    rw [List.toFinset_card_of_nodup hN]
    simp [heapIds]
  have h2 : (s.out ++ heapIds s).toFinset.card ≤ g.ids.toFinset.card := by
    apply Finset.card_le_card
    intro x hx
    rw [List.mem_toFinset] at hx
    rw [List.mem_toFinset]
    exact hsub hx
  have h3 : g.ids.toFinset.card ≤ g.ids.length := g.ids.toFinset_card_le
  omega

theorem schedRun_drain {g : GraphData} {sameF : Option String → String → Nat}
    {pick : GraphData → SchedState → Option Key4}
    (hids : g.ids.Nodup) (hself : ∀ m, m ∉ g.deps m) (hpk : PickOk pick) :
    ∀ (fuel : Nat) {s : SchedState}, SchedInv g s →
      g.ids.length ≤ fuel + s.out.length →
      (schedRun g sameF pick fuel s).heap = [] := by
  intro fuel
  induction fuel with
  | zero =>
    intro s hs hf
    have hl := inv_length hs
    have : s.heap.length = 0 := by omega
    exact List.length_eq_zero.mp this
  | succ f ih =>
    intro s hs hf
    by_cases hh : s.heap = []
    · show (schedRun g sameF pick f (schedStep g sameF pick s)).heap = []
      rw [schedStep_of_empty hpk hh, schedRun_of_empty hpk hh]
      exact hh
    · obtain ⟨e, he⟩ := Option.isSome_iff_exists.mp (hpk.total g s hh)
      show (schedRun g sameF pick f (schedStep g sameF pick s)).heap = []
      apply ih (schedStep_inv hids hself hpk hs)
      rw [schedStep_out_of_some he, List.length_append, List.length_singleton]
      omega

theorem schedFinal_inv {g : GraphData} {sameF : Option String → String → Nat}
    {pick : GraphData → SchedState → Option Key4}
    (hids : g.ids.Nodup) (hself : ∀ m, m ∉ g.deps m) (hpk : PickOk pick) :
    SchedInv g (schedFinal g sameF pick) :=
  schedRun_inv hids hself hpk _ (schedInit_inv hids)

theorem schedFinal_heap {g : GraphData} {sameF : Option String → String → Nat}
    {pick : GraphData → SchedState → Option Key4}
    (hids : g.ids.Nodup) (hself : ∀ m, m ∉ g.deps m) (hpk : PickOk pick) :
    (schedFinal g sameF pick).heap = [] := by
  apply schedRun_drain hids hself hpk _ (schedInit_inv hids)
  show g.ids.length ≤ g.ids.length + ([] : List Nat).length
  simp

theorem final_indeg_nonneg {g : GraphData} {s : SchedState}
    (hs : SchedInv g s) (m : Nat) : 0 ≤ s.indeg m := by
  rw [hs.ideg m]
  have := Finset.card_filter_le (g.deps m) (fun x => x ∈ s.out)
  omega

theorem final_out_iff {g : GraphData} {sameF : Option String → String → Nat}
    {pick : GraphData → SchedState → Option Key4}
    (hids : g.ids.Nodup) (hself : ∀ m, m ∉ g.deps m) (hpk : PickOk pick)
    {m : Nat} (hm : m ∈ g.ids) :
    m ∈ (schedFinal g sameF pick).out ↔
      (schedFinal g sameF pick).indeg m = 0 := by
  have hs := @schedFinal_inv g sameF pick hids hself hpk
  have hh := @schedFinal_heap g sameF pick hids hself hpk
  have hready := hs.ready m hm
  have hempty : heapIds (schedFinal g sameF pick) = [] := by
    rw [heapIds, hh]
    rfl
  rw [hempty] at hready
  simp only [List.not_mem_nil, or_false] at hready
  rw [hready, hs.ideg m, sub_eq_zero]
  constructor
  · intro hall
    rw [Finset.card_filter_eq_iff.mpr hall]
  · intro hc
    exact Finset.card_filter_eq_iff.mp (Nat.cast_inj.mp hc).symm

theorem schedule_eq (g : GraphData) (sameF : Option String → String → Nat)
    (pick : GraphData → SchedState → Option Key4) :
    schedule g sameF pick = (schedFinal g sameF pick).out ++ sortOrd g.order
      (g.ids.filter (fun k => decide (0 < (schedFinal g sameF pick).indeg k))) :=
  rfl

theorem schedule_perm {g : GraphData} {sameF : Option String → String → Nat}
    {pick : GraphData → SchedState → Option Key4}
    (hids : g.ids.Nodup) (hself : ∀ m, m ∉ g.deps m) (hpk : PickOk pick) :
    (schedule g sameF pick).Perm g.ids := by
  have hs := @schedFinal_inv g sameF pick hids hself hpk
  have hof : ∀ {m : Nat}, m ∈ g.ids → (m ∈ (schedFinal g sameF pick).out ↔ (schedFinal g sameF pick).indeg m = 0) :=
    fun hm => final_out_iff hids hself hpk hm
  have hpos := final_indeg_nonneg hs
  refine (List.perm_ext_iff_of_nodup ?_ hids).mpr ?_
  · rw [schedule_eq, List.nodup_append]
    refine ⟨hs.outN, ((sortOrd_perm _ _).nodup_iff).mpr (hids.filter _), ?_⟩
    intro x hx1 hx2
    rw [(sortOrd_perm _ _).mem_iff, List.mem_filter] at hx2
    have hz : (schedFinal g sameF pick).indeg x = 0 := (hof hx2.1).mp hx1
    rw [hz] at hx2
    simp at hx2
  · intro a
    rw [schedule_eq, List.mem_append, (sortOrd_perm _ _).mem_iff,
      List.mem_filter]
    constructor
    · intro hc
      rcases hc with h1 | h2
      · exact hs.outSub a h1
      · exact h2.1
    · intro ha
      by_cases hz : (schedFinal g sameF pick).indeg a = 0
      · exact Or.inl ((hof ha).mpr hz)
      · refine Or.inr ⟨ha, ?_⟩
        have := hpos a
        simp only [decide_eq_true_eq]
        omega

theorem schedFinal_complete {g : GraphData}
    {sameF : Option String → String → Nat}
    {pick : GraphData → SchedState → Option Key4}
    (hids : g.ids.Nodup) (hself : ∀ m, m ∉ g.deps m) (hpk : PickOk pick)
    (hcl : ∀ n ∈ g.ids, ∀ x ∈ g.deps n, x ∈ g.ids)
    (rank : Nat → Nat) (hrk : ∀ n, ∀ x ∈ g.deps n, rank x < rank n) :
    ∀ m ∈ g.ids, m ∈ (schedFinal g sameF pick).out := by
  have hs := @schedFinal_inv g sameF pick hids hself hpk
  have hh := @schedFinal_heap g sameF pick hids hself hpk
  have hempty : heapIds (schedFinal g sameF pick) = [] := by
    rw [heapIds, hh]
    rfl
  have main : ∀ k, ∀ m ∈ g.ids, rank m < k →
      m ∈ (schedFinal g sameF pick).out := by
    intro k
    induction k with
    | zero => intro m _ hc; omega
    | succ k ih =>
      intro m hm hmk
      have hsub : ∀ x ∈ g.deps m, x ∈ (schedFinal g sameF pick).out := by
        intro x hx
        have hlt := hrk m x hx
        exact ih x (hcl m hm x hx) (by omega)
      rcases (hs.ready m hm).mpr hsub with h1 | h2
      · exact h1
      · rw [hempty] at h2
        simp at h2
  intro m hm
  exact main (rank m + 1) m hm (by omega)

theorem schedule_eq_out {g : GraphData} {sameF : Option String → String → Nat}
    {pick : GraphData → SchedState → Option Key4}
    (hids : g.ids.Nodup) (hself : ∀ m, m ∉ g.deps m) (hpk : PickOk pick)
    (hcl : ∀ n ∈ g.ids, ∀ x ∈ g.deps n, x ∈ g.ids)
    (rank : Nat → Nat) (hrk : ∀ n, ∀ x ∈ g.deps n, rank x < rank n) :
    schedule g sameF pick = (schedFinal g sameF pick).out := by
  rw [schedule_eq]
  have hfil : g.ids.filter
      (fun k => decide (0 < (schedFinal g sameF pick).indeg k)) = [] := by
    rw [List.filter_eq_nil_iff]
    intro k hk
    have hz : (schedFinal g sameF pick).indeg k = 0 :=
      (final_out_iff hids hself hpk hk).mp
        (schedFinal_complete hids hself hpk hcl rank hrk k hk)
    simp [hz]
  rw [hfil]
  show (schedFinal g sameF pick).out ++ [] = (schedFinal g sameF pick).out
  simp

/-! ## Lemmas at the `topo_grouped` level -/

theorem buildGraph_no_self (ents : List Block) :
    ∀ m, m ∉ (buildGraph ents).deps m := by
  intro m hc
  have h := mem_depsOf.mp hc
  exact h.2 rfl

theorem topo_schedule_perm (ents : List Block) (mode : GroupMode) :
    (schedule (buildGraph ents) (sameFor mode) (pickFor mode)).Perm
      (buildGraph ents).ids :=
  schedule_perm (ids_nodup ents) (buildGraph_no_self ents) (pickFor_ok mode)

theorem topo_map_eid (ents : List Block) (mode : GroupMode) :
    (topo_grouped ents mode).map Block.eid
      = schedule (buildGraph ents) (sameFor mode) (pickFor mode) := by
  unfold topo_grouped
  rw [List.map_map]
  have hcongr : ∀ n ∈ schedule (buildGraph ents) (sameFor mode) (pickFor mode),
      (Block.eid ∘ (buildGraph ents).ent) n = n := by
    intro n hn
    have hin : n ∈ (buildGraph ents).ids :=
      (topo_schedule_perm ents mode).subset hn
    exact entOf_eid (mem_ids.mp hin)
  calc (schedule (buildGraph ents) (sameFor mode) (pickFor mode)).map
        (Block.eid ∘ (buildGraph ents).ent)
      = (schedule (buildGraph ents) (sameFor mode) (pickFor mode)).map id := by
        exact List.map_congr_left hcongr
    _ = _ := List.map_id _

theorem topo_perm_of_nodup (ents : List Block) (mode : GroupMode)
    (hN : (ents.map Block.eid).Nodup) :
    (topo_grouped ents mode).Perm ents := by
  have h2 : (buildGraph ents).ids = ents.map Block.eid := by
    show (ents.map Block.eid).dedup = ents.map Block.eid
    exact List.dedup_eq_self.mpr hN
  have h3 : (ents.map Block.eid).map (buildGraph ents).ent = ents := by
    rw [List.map_map]
    have hco : ∀ b ∈ ents, ((buildGraph ents).ent ∘ Block.eid) b = b := by
      intro b hb
      exact entOf_self hN hb
    rw [List.map_congr_left hco]
    simp
  have h4 : (topo_grouped ents mode)
      = (schedule (buildGraph ents) (sameFor mode) (pickFor mode)).map
        (buildGraph ents).ent := rfl
  rw [h4]
  apply ((topo_schedule_perm ents mode).map (buildGraph ents).ent).trans
  rw [h2, h3]

theorem closed_deps {ents : List Block} (hcl : ClosedRefs ents) :
    ∀ n ∈ (buildGraph ents).ids, ∀ x ∈ (buildGraph ents).deps n,
      x ∈ (buildGraph ents).ids := by
  intro n _ x hx
  obtain ⟨⟨b, hb, _, hr⟩, _⟩ := mem_depsOf.mp hx
  exact mem_ids.mpr (hcl b hb x hr)

theorem acyclic_rank {ents : List Block} (hac : AcyclicG ents) :
    ∃ rank : Nat → Nat, ∀ n, ∀ x ∈ (buildGraph ents).deps n,
      rank x < rank n := by
  obtain ⟨rank, hrk⟩ := hac
  refine ⟨rank, ?_⟩
  intro n x hx
  obtain ⟨⟨b, hb, heq, _⟩, _⟩ := mem_depsOf.mp hx
  have := hrk b hb x (heq ▸ hx)
  rw [heq] at this
  exact this

theorem topo_no_forward_core (ents : List Block) (mode : GroupMode)
    (hcl : ClosedRefs ents) (hac : AcyclicG ents) :
    ∀ i, ∀ hi : i < (topo_grouped ents mode).length, ∀ r,
      r ∈ ((topo_grouped ents mode).get ⟨i, hi⟩).refs →
      r ≠ ((topo_grouped ents mode).get ⟨i, hi⟩).eid →
      ∃ j, ∃ hj : j < (topo_grouped ents mode).length, j < i ∧
        ((topo_grouped ents mode).get ⟨j, hj⟩).eid = r := by
  obtain ⟨rank, hrk⟩ := acyclic_rank hac
  have hids := ids_nodup ents
  have hself := buildGraph_no_self ents
  have hpk := pickFor_ok mode
  have hcld := closed_deps hcl
  have hsched : schedule (buildGraph ents) (sameFor mode) (pickFor mode)
      = (schedFinal (buildGraph ents) (sameFor mode) (pickFor mode)).out :=
    schedule_eq_out hids hself hpk hcld rank hrk
  set g := buildGraph ents with hg
  set F := schedFinal g (sameFor mode) (pickFor mode) with hF
  have hent : g.ent = entOf ents := by
    rw [hg]
    exact rfl
  have hs : SchedInv g F := schedFinal_inv hids hself hpk
  have htopo : topo_grouped ents mode = F.out.map g.ent := by
    show (schedule g (sameFor mode) (pickFor mode)).map g.ent = _
    rw [hsched]
  intro i hi r hr hne
  have hlen : (topo_grouped ents mode).length = F.out.length := by
    rw [htopo, List.length_map]
  have hiF : i < F.out.length := hlen ▸ hi
  have hgetent : ∀ j (hj : j < F.out.length),
      (topo_grouped ents mode).get ⟨j, hlen ▸ hj⟩
        = entOf ents (F.out.get ⟨j, hj⟩) := by
    intro j hj
    simp only [htopo, List.get_eq_getElem, List.getElem_map, hent]
  have hnid : F.out.get ⟨i, hiF⟩ ∈ g.ids :=
    hs.outSub _ (List.get_mem F.out i hiF)
  have hnmap : F.out.get ⟨i, hiF⟩ ∈ ents.map Block.eid := mem_ids.mp hnid
  have hrdep : r ∈ g.deps (F.out.get ⟨i, hiF⟩) := by
    rw [hg]
    apply mem_depsOf.mpr
    rw [hgetent i hiF] at hr hne
    refine ⟨⟨entOf ents (F.out.get ⟨i, hiF⟩), entOf_mem hnmap,
      entOf_eid hnmap, hr⟩, ?_⟩
    intro hc
    rw [entOf_eid hnmap] at hne
    exact hne hc
  have hrtake : r ∈ F.out.take i := hs.topo i hiF r hrdep
  obtain ⟨j, hjlt, hjget⟩ := List.mem_iff_getElem.mp hrtake
  rw [List.getElem_take] at hjget
  rw [List.length_take] at hjlt
  have hjlen : j < i := lt_of_lt_of_le hjlt (min_le_left _ _)
  have hjF : j < F.out.length := lt_of_lt_of_le hjlt (min_le_right _ _)
  refine ⟨j, hlen ▸ hjF, hjlen, ?_⟩
  rw [hgetent j hjF]
  have hjid : F.out.get ⟨j, hjF⟩ ∈ g.ids :=
    hs.outSub _ (List.get_mem F.out j hjF)
  rw [entOf_eid (mem_ids.mp hjid)]
  show F.out[j] = r
  exact hjget

/-! ## Renumbering lemmas -/

theorem otnGo_append (old : Nat) (l1 l2 : List Block) :
    ∀ i acc, otnGo old i acc (l1 ++ l2)
      = otnGo old (i + l1.length) (otnGo old i acc l1) l2 := by
  induction l1 with
  | nil => intro i acc; simp [otnGo]
  | cons b bs ih =>
    intro i acc
    have h1 : otnGo old i acc (b :: (bs ++ l2))
        = otnGo old (i + 1) (if b.eid == old then some i else acc) (bs ++ l2) :=
      rfl
    rw [List.cons_append, h1, ih]
    have h2 : otnGo old i acc (b :: bs)
        = otnGo old (i + 1) (if b.eid == old then some i else acc) bs := rfl
    rw [h2]
    have h3 : i + 1 + bs.length = i + (b :: bs).length := by
      simp only [List.length_cons]
      omega
    rw [h3]

theorem otnGo_no_hit (old : Nat) :
    ∀ (l : List Block) i acc, (∀ b ∈ l, b.eid ≠ old) →
      otnGo old i acc l = acc := by
  intro l
  induction l with
  | nil => intro i acc _; rfl
  | cons b bs ih =>
    intro i acc h
    have hb : b.eid ≠ old := h b (List.mem_cons_self b bs)
    show otnGo old (i + 1) (if b.eid == old then some i else acc) bs = acc
    rw [if_neg (by simpa using hb)]
    exact ih (i + 1) acc (fun x hx => h x (List.mem_cons_of_mem b hx))

theorem otnGo_isSome (old : Nat) :
    ∀ (l : List Block) (i : Nat) (acc : Option Nat),
      (otnGo old i acc l).isSome
        = (acc.isSome || l.any (fun b => b.eid == old)) := by
  intro l
  induction l with
  | nil => intro i acc; simp [otnGo]
  | cons b bs ih =>
    intro i acc
    show (otnGo old (i + 1) (if b.eid == old then some i else acc) bs).isSome = _
    rw [ih]
    by_cases hb : b.eid = old
    · simp [hb]
    · have hfalse : (b.eid == old) = false := by simpa using hb
      simp [hfalse]

theorem oldToNew_isSome_iff {blocks : List Block} {old : Nat} :
    (oldToNew blocks old).isSome ↔ old ∈ blocks.map Block.eid := by
  unfold oldToNew
  rw [otnGo_isSome]
  simp only [Option.isSome_none, Bool.false_or, List.any_eq_true, beq_iff_eq,
    List.mem_map]

theorem otnGo_bound (old : Nat) :
    ∀ (l : List Block) (i : Nat) (acc : Option Nat) (v : Nat),
      otnGo old i acc l = some v →
      acc = some v ∨ (i ≤ v ∧ v < i + l.length) := by
  intro l
  induction l with
  | nil => intro i acc v h; exact Or.inl h
  | cons b bs ih =>
    intro i acc v h
    have h' : otnGo old (i + 1) (if b.eid == old then some i else acc) bs
        = some v := h
    rcases ih (i + 1) _ v h' with h1 | h2
    · by_cases hb : b.eid == old
      · rw [if_pos hb] at h1
        have : v = i := by
          have := h1
          simp at this
          omega
        subst this
        right
        constructor
        · omega
        · simp only [List.length_cons]
          omega
      · rw [if_neg hb] at h1
        exact Or.inl h1
    · right
      simp only [List.length_cons]
      omega

theorem oldToNew_bound {blocks : List Block} {old v : Nat}
    (h : oldToNew blocks old = some v) : 1 ≤ v ∧ v ≤ blocks.length := by
  rcases otnGo_bound old blocks 1 Option.none v h with h1 | h2
  · simp at h1
  · omega

theorem oldToNew_get {blocks : List Block}
    (hN : (blocks.map Block.eid).Nodup) (k : Nat) (hk : k < blocks.length) :
    oldToNew blocks (blocks.get ⟨k, hk⟩).eid = some (k + 1) := by
  set old := (blocks.get ⟨k, hk⟩).eid with ho
  have hsplit : blocks
      = blocks.take k ++ blocks.get ⟨k, hk⟩ :: blocks.drop (k + 1) := by
    rw [List.get_eq_getElem, ← List.drop_eq_getElem_cons hk,
      List.take_append_drop]
  have hlen : (blocks.take k).length = k := List.length_take_of_le (le_of_lt hk)
  have hno : ∀ b ∈ blocks.drop (k + 1), b.eid ≠ old := by
    intro b hb heq
    have hmap : (blocks.map Block.eid).Nodup := hN
    rw [hsplit, List.map_append, List.map_cons] at hmap
    have h2 := List.Nodup.of_append_right hmap
    rw [List.nodup_cons] at h2
    exact h2.1 (List.mem_map.mpr ⟨b, hb, heq⟩)
  calc oldToNew blocks old
      = otnGo old 1 Option.none
          (blocks.take k ++ blocks.get ⟨k, hk⟩ :: blocks.drop (k + 1)) := by
        rw [oldToNew, ← hsplit]
    _ = otnGo old (1 + k) (otnGo old 1 Option.none (blocks.take k))
          (blocks.get ⟨k, hk⟩ :: blocks.drop (k + 1)) := by
        rw [otnGo_append, hlen]
    _ = some (k + 1) := by
        have hstep : otnGo old (1 + k)
            (otnGo old 1 Option.none (blocks.take k))
            (blocks.get ⟨k, hk⟩ :: blocks.drop (k + 1))
            = otnGo old (1 + k + 1)
              (if (blocks.get ⟨k, hk⟩).eid == old
               then some (1 + k)
               else otnGo old 1 Option.none (blocks.take k))
              (blocks.drop (k + 1)) := rfl
        rw [hstep, if_pos (by simp [ho]), otnGo_no_hit old _ _ _ hno]
        have hkk : 1 + k = k + 1 := by omega
        rw [hkk]

theorem mapM_some_of_forall {α β : Type} (f : α → Option β) :
    ∀ l : List α, (∀ a ∈ l, (f a).isSome) →
      ∃ out, l.mapM f = some out ∧
        List.Forall₂ (fun a b => f a = some b) l out := by
  intro l
  induction l with
  | nil => exact fun _ => ⟨[], rfl, List.Forall₂.nil⟩
  | cons a as ih =>
    intro h
    obtain ⟨v, hv⟩ :=
      Option.isSome_iff_exists.mp (h a (List.mem_cons_self a as))
    obtain ⟨out, hout, hfa⟩ :=
      ih (fun x hx => h x (List.mem_cons_of_mem a hx))
    refine ⟨v :: out, ?_, List.Forall₂.cons hv hfa⟩
    rw [List.mapM_cons, hv, hout]
    rfl

theorem mapM_isSome_iff {α β : Type} (f : α → Option β) :
    ∀ l : List α, (l.mapM f).isSome ↔ ∀ a ∈ l, (f a).isSome := by
  intro l
  induction l with
  | nil =>
    constructor
    · intro _ a ha
      simp at ha
    · intro _
      rfl
  | cons a as ih =>
    rw [List.mapM_cons]
    constructor
    · intro h x hx
      cases hfa : f a with
      | none => rw [hfa] at h; simp at h
      | some v =>
        rw [hfa] at h
        cases hmas : as.mapM f with
        | none => rw [hmas] at h; simp at h
        | some vs =>
          rcases List.mem_cons.mp hx with rfl | hx'
          · exact Option.isSome_iff_exists.mpr ⟨v, hfa⟩
          · exact (ih.mp (Option.isSome_iff_exists.mpr ⟨vs, hmas⟩)) x hx'
    · intro h
      obtain ⟨v, hv⟩ :=
        Option.isSome_iff_exists.mp (h a (List.mem_cons_self a as))
      obtain ⟨vs, hvs⟩ := Option.isSome_iff_exists.mp
        (ih.mpr (fun x hx => h x (List.mem_cons_of_mem a hx)))
      rw [hv, hvs]
      simp

theorem renumberBlock_isSome {otn : Nat → Option Nat} {b : Block}
    (he : (otn b.eid).isSome) (hr : ∀ r ∈ b.refs, (otn r).isSome) :
    (renumberBlock otn b).isSome := by
  obtain ⟨v, hv⟩ := Option.isSome_iff_exists.mp he
  obtain ⟨rs, hrs⟩ :=
    Option.isSome_iff_exists.mp ((mapM_isSome_iff otn b.refs).mpr hr)
  unfold renumberBlock
  rw [hv, hrs]
  rfl

theorem renumberBlock_eq_some {otn : Nat → Option Nat} {b b' : Block}
    (h : renumberBlock otn b = some b') :
    otn b.eid = some b'.eid ∧ b'.typ = b.typ ∧ b.refs.mapM otn = some b'.refs := by
  unfold renumberBlock at h
  cases he : otn b.eid with
  | none => rw [he] at h; simp at h
  | some v =>
    rw [he] at h
    cases hrs : b.refs.mapM otn with
    | none => rw [hrs] at h; simp at h
    | some rs =>
      rw [hrs] at h
      simp only [Option.some.injEq] at h
      subst h
      exact ⟨rfl, rfl, rfl⟩

theorem mapM_eq_some_forall {α β : Type} (f : α → Option β) :
    ∀ {l : List α} {out : List β}, l.mapM f = some out →
      List.Forall₂ (fun a b => f a = some b) l out := by
  intro l
  induction l with
  | nil =>
    intro out h
    have h2 : (some ([] : List β) : Option (List β)) = some out := h
    have h3 : out = [] := by
      simpa using h2.symm
    subst h3
    exact List.Forall₂.nil
  | cons a as ih =>
    intro out h
    rw [List.mapM_cons] at h
    cases hfa : f a with
    | none => rw [hfa] at h; simp at h
    | some v =>
      rw [hfa] at h
      cases hmas : as.mapM f with
      | none => rw [hmas] at h; simp at h
      | some vs =>
        rw [hmas] at h
        simp only [Option.pure_def, Option.bind_some, Option.bind_eq_bind,
          Option.some_bind, Option.some.injEq] at h
        subst h
        exact List.Forall₂.cons hfa (ih hmas)

/-- The renumbering bijection: on a duplicate-free, reference-closed
scheduled list the renumberer succeeds, gives position `k` (1-based) the
header identifier `k`, produces exactly the identifier range `1..N`, and
rewrites every reference into that range. -/
theorem renumber_props (blocks : List Block)
    (hN : (blocks.map Block.eid).Nodup)
    (hcl : ∀ b ∈ blocks, ∀ r ∈ b.refs, r ∈ blocks.map Block.eid) :
    ∃ out, renumber_entities blocks = some out ∧
      out.length = blocks.length ∧
      (∀ k, ∀ hk : k < out.length, (out.get ⟨k, hk⟩).eid = k + 1) ∧
      (∀ b' ∈ out, ∀ r ∈ b'.refs, 1 ≤ r ∧ r ≤ blocks.length) ∧
      out.map Block.eid = List.range' 1 blocks.length := by
  have hsome : ∀ b ∈ blocks, (renumberBlock (oldToNew blocks) b).isSome := by
    intro b hb
    refine renumberBlock_isSome ?_ ?_
    · exact oldToNew_isSome_iff.mpr (List.mem_map.mpr ⟨b, hb, rfl⟩)
    · intro r hr
      exact oldToNew_isSome_iff.mpr (hcl b hb r hr)
  obtain ⟨out, hout, hfa⟩ :=
    mapM_some_of_forall (renumberBlock (oldToNew blocks)) blocks hsome
  have hlen : out.length = blocks.length := hfa.length_eq.symm
  have hget := (List.forall₂_iff_get.mp hfa).2
  have hgeteid : ∀ k, ∀ hk : k < out.length, (out.get ⟨k, hk⟩).eid = k + 1 := by
    intro k hk
    have hkb : k < blocks.length := by omega
    have hrel := hget k hkb hk
    have h1 := (renumberBlock_eq_some hrel).1
    rw [oldToNew_get hN k hkb] at h1
    have h2 : k + 1 = (out.get ⟨k, hk⟩).eid := by simpa using h1
    exact h2.symm
  refine ⟨out, hout, hlen, hgeteid, ?_, ?_⟩
  · intro b' hb' r hr
    obtain ⟨k, hk, hbk⟩ := List.mem_iff_getElem.mp hb'
    have hkb : k < blocks.length := by omega
    have hrel := hget k hkb hk
    have h3 := (renumberBlock_eq_some hrel).2.2
    have hfa2 := mapM_eq_some_forall (oldToNew blocks) h3
    have hget2 := (List.forall₂_iff_get.mp hfa2).2
    have hlen2 := hfa2.length_eq
    have hrin : r ∈ (out.get ⟨k, hk⟩).refs := by
      rw [List.get_eq_getElem, hbk]
      exact hr
    obtain ⟨j, hj, hje⟩ := List.mem_iff_getElem.mp hrin
    have hjb : j < (blocks.get ⟨k, hkb⟩).refs.length := by omega
    have hj2 := hget2 j hjb hj
    simp only [List.get_eq_getElem] at hj2 hje
    rw [hje] at hj2
    exact oldToNew_bound hj2
  · apply List.ext_getElem
    · rw [List.length_map, hlen, List.length_range']
    · intro i h1 h2
      rw [List.getElem_map, List.getElem_range']
      have hio : i < out.length := by
        rw [List.length_map] at h1
        exact h1
      have := hgeteid i hio
      rw [List.get_eq_getElem] at this
      rw [this]
      omega

theorem topo_blocks_mem (ents : List Block) (mode : GroupMode) :
    ∀ b ∈ topo_grouped ents mode, b ∈ ents := by
  intro b hbm
  have hbm' : b ∈ (schedule (buildGraph ents) (sameFor mode)
      (pickFor mode)).map (buildGraph ents).ent := hbm
  obtain ⟨n, hn, rfl⟩ := List.mem_map.mp hbm'
  have hnid : n ∈ (buildGraph ents).ids :=
    (topo_schedule_perm ents mode).subset hn
  exact entOf_mem (mem_ids.mp hnid)

/-- Amended renumbering reachability: when every reference resolves to
some record header, the renumbering of the scheduled output never hits
a missing mapping. -/
theorem renumber_topo_isSome (ents : List Block) (mode : GroupMode)
    (hcl : ClosedRefs ents) :
    (renumber_entities (topo_grouped ents mode)).isSome := by
  have hcover : ∀ r, r ∈ ents.map Block.eid →
      r ∈ (topo_grouped ents mode).map Block.eid := by
    intro r hr
    rw [topo_map_eid]
    exact ((topo_schedule_perm ents mode).mem_iff).mpr (mem_ids.mpr hr)
  unfold renumber_entities
  apply (mapM_isSome_iff _ _).mpr
  intro b hbm
  refine renumberBlock_isSome ?_ ?_
  · exact oldToNew_isSome_iff.mpr (List.mem_map.mpr ⟨b, hbm, rfl⟩)
  · intro r hr
    exact oldToNew_isSome_iff.mpr
      (hcover r (hcl b (topo_blocks_mem ents mode b hbm) r hr))

theorem filter_eq_singleton_of_nodup :
    ∀ {l : List Nat}, l.Nodup → ∀ {e : Nat}, e ∈ l →
      l.filter (fun n => n == e) = [e] := by
  intro l
  induction l with
  | nil => intro _ e he; simp at he
  | cons a as ih =>
    intro hN e he
    rw [List.nodup_cons] at hN
    rcases List.mem_cons.mp he with rfl | he'
    · have hnil : as.filter (fun n => n == e) = [] := by
        rw [List.filter_eq_nil_iff]
        intro x hx
        simp only [beq_iff_eq]
        intro heq
        exact hN.1 (heq ▸ hx)
      rw [List.filter_cons]
      simp [hnil]
    · have hne : a ≠ e := by
        rintro rfl
        exact hN.1 he'
      rw [List.filter_cons]
      simp only [beq_iff_eq, hne, decide_eq_true_eq, if_neg hne]
      exact ih hN.2 he'

theorem topo_filter_eid (ents : List Block) (mode : GroupMode) {e : Nat}
    (he : e ∈ ents.map Block.eid) :
    (topo_grouped ents mode).filter (fun b => b.eid == e)
      = [entOf ents e] := by
  have hperm := topo_schedule_perm ents mode
  have hN : (schedule (buildGraph ents) (sameFor mode) (pickFor mode)).Nodup :=
    hperm.nodup_iff.mpr (ids_nodup ents)
  have hmem : e ∈ schedule (buildGraph ents) (sameFor mode) (pickFor mode) :=
    hperm.mem_iff.mpr (mem_ids.mpr he)
  have h0 : topo_grouped ents mode
      = (schedule (buildGraph ents) (sameFor mode) (pickFor mode)).map
        (buildGraph ents).ent := rfl
  rw [h0, List.filter_map]
  have hcongr : (schedule (buildGraph ents) (sameFor mode)
        (pickFor mode)).filter
        ((fun b => b.eid == e) ∘ (buildGraph ents).ent)
      = (schedule (buildGraph ents) (sameFor mode) (pickFor mode)).filter
        (fun n => n == e) := by
    apply List.filter_congr
    intro n hn
    have hnid : n ∈ (buildGraph ents).ids := hperm.subset hn
    have heid : ((buildGraph ents).ent n).eid = n := entOf_eid (mem_ids.mp hnid)
    show (((buildGraph ents).ent n).eid == e) = (n == e)
    rw [heid]
  rw [hcongr, filter_eq_singleton_of_nodup hN hmem]
  rfl

theorem entOf_append_last {pre post : List Block} {b2 : Block} {e : Nat}
    (he2 : b2.eid = e) (hpost : ∀ b ∈ post, b.eid ≠ e) :
    entOf (pre ++ b2 :: post) e = b2 := by
  unfold entOf
  rw [List.filter_append]
  have h1 : (b2 :: post).filter (fun b => b.eid == e) = [b2] := by
    have hnil : post.filter (fun b => b.eid == e) = [] := by
      rw [List.filter_eq_nil_iff]
      intro x hx
      simpa using hpost x hx
    rw [List.filter_cons]
    simp [he2, hnil]
  rw [h1, List.getLast?_concat]
  rfl

/-! ## Soft mode coincides with the push-time penalty machine -/

theorem pushKey_inj (g : GraphData) {x p : Nat × Nat}
    (h : pushKey g x = pushKey g p) : x = p := by
  obtain ⟨x1, x2⟩ := x
  obtain ⟨p1, p2⟩ := p
  unfold pushKey at h
  simp only [Prod.mk.injEq] at h
  simp [h.2.1, h.2.2.2]

theorem map_erase_pushKey (g : GraphData) :
    ∀ (l : List (Nat × Nat)) (p : Nat × Nat),
      (l.erase p).map (pushKey g) = (l.map (pushKey g)).erase (pushKey g p) := by
  intro l
  induction l with
  | nil => intro p; simp
  | cons b bs ih =>
    intro p
    by_cases hbp : b = p
    · subst hbp
      rw [List.erase_cons_head, List.map_cons, List.erase_cons_head]
    · have hfbe : pushKey g b ≠ pushKey g p := fun hf => hbp (pushKey_inj g hf)
      rw [List.erase_cons_tail, List.map_cons, List.map_cons,
        List.erase_cons_tail, ih p]
      · simp [hfbe]
      · simp [hbp]

theorem pushStep_some {g : GraphData} {b : PushState} {p : Nat × Nat}
    (hp : (heapMin (b.ready.map (pushKey g))).map
      (fun e => (keyId e, keySame e)) = some p) :
    pushStep g b =
      { ready := b.ready.erase p ++ (g.ids.filter (fun m =>
            decide (p.1 ∈ g.deps m) &&
              ((if p.1 ∈ g.deps m then b.indeg m - 1 else b.indeg m) == 0))).map
          (fun m => (m, pushPen (some (g.typ p.1)) (g.typ m)))
        lastTy := some (g.typ p.1)
        indeg := fun m => if p.1 ∈ g.deps m then b.indeg m - 1 else b.indeg m
        out := b.out ++ [p.1] } := by
  simp [pushStep, hp]

theorem pushStep_none {g : GraphData} {b : PushState}
    (hp : heapMin (b.ready.map (pushKey g)) = Option.none) :
    pushStep g b = b := by
  simp [pushStep, hp]

/-- One-step simulation between the engine's soft mode and the
push-time penalty machine. -/
theorem soft_push_step (g : GraphData) {a : SchedState} {b : PushState}
    (hheap : b.ready.map (pushKey g) = a.heap)
    (hcur : b.lastTy = a.curTy) (hindeg : b.indeg = a.indeg)
    (hout : b.out = a.out) :
    (pushStep g b).ready.map (pushKey g)
        = (schedStep g (sameFor GroupMode.soft) pickSingle a).heap ∧
      (pushStep g b).lastTy
        = (schedStep g (sameFor GroupMode.soft) pickSingle a).curTy ∧
      (pushStep g b).indeg
        = (schedStep g (sameFor GroupMode.soft) pickSingle a).indeg ∧
      (pushStep g b).out
        = (schedStep g (sameFor GroupMode.soft) pickSingle a).out := by
  cases hm : heapMin a.heap with
  | none =>
    have hm2 : heapMin (b.ready.map (pushKey g)) = Option.none := by
      rw [hheap]
      exact hm
    rw [pushStep_none hm2,
      schedStep_of_none (show pickSingle g a = Option.none from hm)]
    exact ⟨hheap, hcur, hindeg, hout⟩
  | some e =>
    have hmem : e ∈ b.ready.map (pushKey g) := by
      rw [hheap]
      exact heapMin_mem hm
    obtain ⟨p0, hp0, hpk⟩ := List.mem_map.mp hmem
    have hpair : (keyId e, keySame e) = p0 := by
      rw [← hpk]
      rfl
    have hm2 : (heapMin (b.ready.map (pushKey g))).map
        (fun e => (keyId e, keySame e)) = some p0 := by
      rw [hheap, hm]
      simp [hpair]
    have hid : p0.1 = keyId e := by
      rw [← hpair]
    rw [pushStep_some hm2,
      schedStep_some (show pickSingle g a = some e from hm)]
    rw [hid, hindeg, hout]
    refine ⟨?_, rfl, rfl, rfl⟩
    show (b.ready.erase p0 ++ _).map (pushKey g) = _
    rw [List.map_append, map_erase_pushKey g _ p0, hheap, hpk, List.map_map]
    have hmk : (pushKey g) ∘ (fun m =>
        (m, pushPen (some (g.typ (keyId e))) (g.typ m)))
        = mkEntry g (sameFor GroupMode.soft) (some (g.typ (keyId e))) := by
      funext m
      rfl
    rw [hmk]

theorem soft_push_run (g : GraphData) :
    ∀ (fuel : Nat) (a : SchedState) (b : PushState),
      b.ready.map (pushKey g) = a.heap → b.lastTy = a.curTy →
      b.indeg = a.indeg → b.out = a.out →
      (pushRun g fuel b).ready.map (pushKey g)
          = (schedRun g (sameFor GroupMode.soft) pickSingle fuel a).heap ∧
        (pushRun g fuel b).indeg
          = (schedRun g (sameFor GroupMode.soft) pickSingle fuel a).indeg ∧
        (pushRun g fuel b).out
          = (schedRun g (sameFor GroupMode.soft) pickSingle fuel a).out := by
  intro fuel
  induction fuel with
  | zero => intro a b h1 h2 h3 h4; exact ⟨h1, h3, h4⟩
  | succ f ih =>
    intro a b h1 h2 h3 h4
    obtain ⟨g1, g2, g3, g4⟩ := soft_push_step g h1 h2 h3 h4
    exact ih _ _ g1 g2 g3 g4

/-- The engine's soft mode computes exactly the push-time penalty
machine's schedule. -/
theorem topo_soft_eq_push (ents : List Block) :
    topo_grouped ents GroupMode.soft = topoSoftPush ents := by
  have hrun := soft_push_run (buildGraph ents) (buildGraph ents).ids.length
    (schedInit (buildGraph ents) (sameFor GroupMode.soft))
    ⟨((buildGraph ents).ids.filter
        (fun n => ((buildGraph ents).deps n).card == 0)).map
        (fun m => (m, pushPen Option.none ((buildGraph ents).typ m))),
      Option.none, fun n => (((buildGraph ents).deps n).card : Int), []⟩
    (by
      show (((buildGraph ents).ids.filter
        (fun n => ((buildGraph ents).deps n).card == 0)).map
        (fun m => (m, pushPen Option.none ((buildGraph ents).typ m)))).map
          (pushKey (buildGraph ents))
        = (schedInit (buildGraph ents) (sameFor GroupMode.soft)).heap
      rw [List.map_map]
      rfl)
    rfl rfl rfl
  obtain ⟨h1, h2, h3⟩ := hrun
  show (schedule (buildGraph ents) (sameFor GroupMode.soft) pickSingle).map
      (buildGraph ents).ent = _
  unfold topoSoftPush schedule
  dsimp only
  rw [h2, h3]

/-! ## Order substitution: a second run keyed by the first run's output
positions.  These lemmas show each pop policy picks corresponding
entries when every heap entry's origin component is replaced by its
position in the first run's full schedule. -/

theorem remapKey_keyId (ord2 : Nat → Nat) (e : Key4) :
    keyId (remapKey ord2 e) = keyId e := rfl

theorem keyLtP_remap (ord2 : Nat → Nat) {e x : Key4} (hlt : KeyLtP e x)
    (hord : ord2 (keyId e) < ord2 (keyId x)) :
    KeyLtP (remapKey ord2 e) (remapKey ord2 x) := by
  obtain ⟨e1, e2, e3, e4⟩ := e
  obtain ⟨x1, x2, x3, x4⟩ := x
  simp only [KeyLtP, remapKey, keyId] at hlt hord ⊢
  omega

theorem heapMin_remap (ord2 : Nat → Nat) {l l2 : List Key4} {e : Key4}
    (hperm : l2.Perm (l.map (remapKey ord2)))
    (hN : (l.map keyId).Nodup)
    (hmin : heapMin l = some e)
    (hpos : ∀ x ∈ l, keyId x ≠ keyId e → ord2 (keyId e) < ord2 (keyId x)) :
    heapMin l2 = some (remapKey ord2 e) := by
  have hem := heapMin_mem hmin
  apply heapMin_eq_some_of
  · exact hperm.mem_iff.mpr (List.mem_map.mpr ⟨e, hem, rfl⟩)
  · intro y hy hne
    obtain ⟨x, hx, rfl⟩ := List.mem_map.mp (hperm.mem_iff.mp hy)
    have hxe : x ≠ e := fun h => hne (h ▸ rfl)
    have hidne : keyId x ≠ keyId e := fun hid =>
      hxe (nodup_map_inj keyId hN x hx e hem hid)
    have hlt : KeyLtP e x := by
      rcases keyLtP_tri e x with h | h | h
      · exact h
      · exact absurd h.symm hxe
      · exact absurd h (heapMin_le hmin x hx)
    exact keyLtP_remap ord2 hlt (hpos x hx hidne)

/-- The kind switch of strict mode selects the globally minimal entry:
`min(ready_by_type, key=...[0][:2])` picks the kind of the smallest
`(depth, order)` pair and the subsequent pop takes that kind's head. -/
theorem pickSwitch_eq_heapMin (g : GraphData) (s : SchedState) :
    pickSwitch g s = heapMin s.heap := by
  unfold pickSwitch
  cases hm : heapMin s.heap with
  | none => rfl
  | some e0 =>
    apply heapMin_eq_some_of
    · exact List.mem_filter.mpr ⟨heapMin_mem hm, by simp⟩
    · intro x hx hne
      have hx' := (List.mem_filter.mp hx).1
      rcases keyLtP_tri e0 x with h | h | h
      · exact h
      · exact absurd h.symm hne
      · exact absurd h (heapMin_le hm x hx')

theorem pickStrict_eq (g : GraphData) (s : SchedState) :
    pickStrict g s =
      match s.curTy with
      | some t =>
        if t ≠ "" ∧ s.heap.any (fun e => g.typ (keyId e) == t) then
          heapMin (s.heap.filter (fun e => g.typ (keyId e) == t))
        else heapMin s.heap
      | Option.none => heapMin s.heap := by
  obtain ⟨hp, ct, ind, out⟩ := s
  unfold pickStrict
  cases ct with
  | none => exact pickSwitch_eq_heapMin g ⟨hp, Option.none, ind, out⟩
  | some t =>
    dsimp only
    split
    · rfl
    · exact pickSwitch_eq_heapMin g ⟨hp, some t, ind, out⟩

theorem any_perm_map (ord2 : Nat → Nat) {l2 l : List Key4} {f2 f1 : Key4 → Bool}
    (hperm : l2.Perm (l.map (remapKey ord2)))
    (hcomp : ∀ x, f2 (remapKey ord2 x) = f1 x) :
    l2.any f2 = l.any f1 := by
  apply Bool.coe_iff_coe.mp
  simp only [List.any_eq_true]
  constructor
  · rintro ⟨y, hy, hfy⟩
    obtain ⟨x, hx, rfl⟩ := List.mem_map.mp (hperm.mem_iff.mp hy)
    exact ⟨x, hx, (hcomp x) ▸ hfy⟩
  · rintro ⟨x, hx, hfx⟩
    exact ⟨remapKey ord2 x, hperm.mem_iff.mpr (List.mem_map.mpr ⟨x, hx, rfl⟩),
      (hcomp x).symm ▸ hfx⟩

theorem pickSingle_sim (g1 g2 : GraphData) {a b : SchedState} {e : Key4}
    (hperm : b.heap.Perm (a.heap.map (remapKey g2.order)))
    (hN : (heapIds a).Nodup)
    (hp : pickSingle g1 a = some e)
    (hpos : ∀ x ∈ a.heap, keyId x ≠ keyId e →
      g2.order (keyId e) < g2.order (keyId x)) :
    pickSingle g2 b = some (remapKey g2.order e) :=
  heapMin_remap g2.order hperm hN hp hpos

theorem pickStrict_sim {g1 g2 : GraphData} (HT : g2.typ = g1.typ)
    {a b : SchedState} {e : Key4}
    (hperm : b.heap.Perm (a.heap.map (remapKey g2.order)))
    (hcur : b.curTy = a.curTy)
    (hN : (heapIds a).Nodup)
    (hp : pickStrict g1 a = some e)
    (hpos : ∀ x ∈ a.heap, keyId x ≠ keyId e →
      g2.order (keyId e) < g2.order (keyId x)) :
    pickStrict g2 b = some (remapKey g2.order e) := by
  rw [pickStrict_eq] at hp
  rw [pickStrict_eq, hcur]
  cases hc : a.curTy with
  | none =>
    rw [hc] at hp
    have hp' : heapMin a.heap = some e := hp
    show heapMin b.heap = some (remapKey g2.order e)
    exact heapMin_remap g2.order hperm hN hp' hpos
  | some t =>
    rw [hc] at hp
    have hp' : (if t ≠ "" ∧ a.heap.any (fun y => g1.typ (keyId y) == t) = true
        then heapMin (a.heap.filter (fun y => g1.typ (keyId y) == t))
        else heapMin a.heap) = some e := hp
    have hany : b.heap.any (fun y => g2.typ (keyId y) == t)
        = a.heap.any (fun y => g1.typ (keyId y) == t) :=
      any_perm_map g2.order hperm (fun x => by
        show (g2.typ (keyId x) == t) = (g1.typ (keyId x) == t)
        rw [HT])
    show (if t ≠ "" ∧ b.heap.any (fun y => g2.typ (keyId y) == t) = true
        then heapMin (b.heap.filter (fun y => g2.typ (keyId y) == t))
        else heapMin b.heap) = some (remapKey g2.order e)
    rw [hany]
    by_cases hcnd : t ≠ "" ∧ a.heap.any (fun y => g1.typ (keyId y) == t) = true
    · rw [if_pos hcnd] at hp'
      rw [if_pos hcnd]
      have hfeq : b.heap.filter (fun y => g2.typ (keyId y) == t)
          = b.heap.filter (fun y => g2.typ (keyId y) == t) := rfl
      have h1 : (b.heap.filter (fun y => g2.typ (keyId y) == t)).Perm
          ((a.heap.map (remapKey g2.order)).filter
            (fun y => g2.typ (keyId y) == t)) :=
        hperm.filter _
      have h2 : (a.heap.map (remapKey g2.order)).filter
            (fun y => g2.typ (keyId y) == t)
          = (a.heap.filter ((fun y => g2.typ (keyId y) == t)
              ∘ remapKey g2.order)).map (remapKey g2.order) := by
        rw [List.filter_map]
      have h3 : a.heap.filter ((fun y => g2.typ (keyId y) == t)
            ∘ remapKey g2.order)
          = a.heap.filter (fun y => g1.typ (keyId y) == t) := by
        apply List.filter_congr
        intro x _
        show (g2.typ (keyId x) == t) = (g1.typ (keyId x) == t)
        rw [HT]
      have hperm' : (b.heap.filter (fun y => g2.typ (keyId y) == t)).Perm
          ((a.heap.filter (fun y => g1.typ (keyId y) == t)).map
            (remapKey g2.order)) := by
        rw [← h3, ← h2]
        exact h1
      refine heapMin_remap g2.order hperm' ?_ hp' ?_
      · exact hN.sublist ((List.filter_sublist a.heap).map keyId)
      · intro x hx hne
        exact hpos x (List.mem_filter.mp hx).1 hne
    · rw [if_neg hcnd] at hp'
      rw [if_neg hcnd]
      exact heapMin_remap g2.order hperm hN hp' hpos

/-- An unpopped heap entry survives a step that pops a different
identifier. -/
theorem mem_heapIds_step {g : GraphData} {sameF : Option String → String → Nat}
    {pick : GraphData → SchedState → Option Key4} {s : SchedState} {e : Key4}
    (hp : pick g s = some e) (he : e ∈ s.heap) (hN : (heapIds s).Nodup)
    {m : Nat} (hm : m ∈ heapIds s) (hne : m ≠ keyId e) :
    m ∈ heapIds (schedStep g sameF pick s) := by
  rw [schedStep_some hp]
  show m ∈ (s.heap.erase e ++ (g.ids.filter (fun k =>
      decide (keyId e ∈ g.deps k) &&
        ((if keyId e ∈ g.deps k then s.indeg k - 1 else s.indeg k) == 0))).map
    (mkEntry g sameF (some (g.typ (keyId e))))).map keyId
  rw [List.map_append]
  apply List.mem_append_left
  have hinj : ∀ x ∈ s.heap, keyId x = keyId e → x = e :=
    fun x hx hxe => nodup_map_inj keyId hN x hx e he hxe
  rw [map_erase_key s.heap e hinj]
  exact (List.Nodup.mem_erase_iff hN).mpr ⟨hne, hm⟩

/-- Every identifier on the ready structure is eventually emitted,
provided the run lasts long enough to empty the structure. -/
theorem heap_to_out {g : GraphData} {sameF : Option String → String → Nat}
    {pick : GraphData → SchedState → Option Key4}
    (hids : g.ids.Nodup) (hself : ∀ m, m ∉ g.deps m) (hpk : PickOk pick) :
    ∀ (fuel : Nat) (s : SchedState), SchedInv g s → ∀ m ∈ heapIds s,
      m ∈ (schedRun g sameF pick fuel s).out ∨
        m ∈ heapIds (schedRun g sameF pick fuel s) := by
  intro fuel
  induction fuel with
  | zero => intro s _ m hm; exact Or.inr hm
  | succ f ih =>
    intro s hs m hm
    show m ∈ (schedRun g sameF pick f (schedStep g sameF pick s)).out ∨
      m ∈ heapIds (schedRun g sameF pick f (schedStep g sameF pick s))
    cases hp : pick g s with
    | none =>
      rw [schedStep_of_none hp]
      exact ih s hs m hm
    | some e =>
      have hstep := @schedStep_inv g sameF pick hids hself hpk s hs
      by_cases hme : m = keyId e
      · left
        obtain ⟨t, ht⟩ := schedRun_out_extend f (schedStep g sameF pick s)
        rw [ht, schedStep_out_of_some hp]
        subst hme
        simp
      · exact ih _ hstep m
          (mem_heapIds_step hp (hpk.mem g s e hp) hs.hpN hm hme)

/-- A list without duplicates is strictly ordered by position. -/
theorem pairwise_indexOf : ∀ {L : List Nat}, L.Nodup →
    L.Pairwise (fun a b => L.indexOf a < L.indexOf b) := by
  intro L
  induction L with
  | nil => intro _; exact List.Pairwise.nil
  | cons a l ih =>
    intro hN
    have hna : a ∉ l := (List.nodup_cons.mp hN).1
    have hN' : l.Nodup := (List.nodup_cons.mp hN).2
    constructor
    · intro b hb
      have hba : a ≠ b := fun h => hna (h ▸ hb)
      rw [List.indexOf_cons_self, List.indexOf_cons_ne l hba]
      omega
    · refine (ih hN').imp_of_mem ?_
      intro x y hx hy hxy
      have hxa : a ≠ x := fun h => hna (h ▸ hx)
      have hya : a ≠ y := fun h => hna (h ▸ hy)
      rw [List.indexOf_cons_ne l hxa, List.indexOf_cons_ne l hya]
      omega

/-- `List.erase` on heap entries respects permutation (stated for the
entry type to fix the equality-test instance used by the scheduler). -/
theorem perm_erase_k4 {l1 l2 : List Key4} (h : l1.Perm l2) (e : Key4) :
    (l1.erase e).Perm (l2.erase e) := by
  induction h with
  | nil => simp
  | cons x h ih =>
    by_cases hxe : x = e
    · subst hxe
      rw [List.erase_cons_head, List.erase_cons_head]
      exact h
    · rw [List.erase_cons_tail, List.erase_cons_tail]
      · exact ih.cons x
      · simp [hxe]
      · simp [hxe]
  | swap x y l =>
    by_cases hxe : x = e
    · by_cases hye : y = e
      · rw [hxe, hye]
      · have h1 : (y :: x :: l).erase e = y :: l := by
          rw [List.erase_cons_tail (by simp [hye]), hxe, List.erase_cons_head]
        have h2 : (x :: y :: l).erase e = y :: l := by
          rw [hxe, List.erase_cons_head]
        rw [h1, h2]
    · by_cases hye : y = e
      · have h1 : (y :: x :: l).erase e = x :: l := by
          rw [hye, List.erase_cons_head]
        have h2 : (x :: y :: l).erase e = x :: l := by
          rw [List.erase_cons_tail (by simp [hxe]), hye, List.erase_cons_head]
        rw [h1, h2]
      · have h1 : (y :: x :: l).erase e = y :: x :: l.erase e := by
          rw [List.erase_cons_tail (by simp [hye]),
            List.erase_cons_tail (by simp [hxe])]
        have h2 : (x :: y :: l).erase e = x :: y :: l.erase e := by
          rw [List.erase_cons_tail (by simp [hxe]),
            List.erase_cons_tail (by simp [hye])]
        rw [h1, h2]
        exact List.Perm.swap x y _
  | trans _ _ ih1 ih2 => exact ih1.trans ih2

/-- `map` commutes with `erase` on heap entries for any re-keying that
separates the list's members. -/
theorem map_erase_k4 (f : Key4 → Key4) : ∀ (l : List Key4) (e : Key4),
    (∀ x ∈ l, f x = f e → x = e) →
    (l.erase e).map f = (l.map f).erase (f e) := by
  intro l
  induction l with
  | nil => intro e _; simp
  | cons b bs ih =>
    intro e hinj
    by_cases hbe : b = e
    · subst hbe
      rw [List.erase_cons_head, List.map_cons, List.erase_cons_head]
    · have hfbe : f b ≠ f e :=
        fun hf => hbe (hinj b (List.mem_cons_self b bs) hf)
      rw [List.erase_cons_tail, List.map_cons, List.map_cons,
        List.erase_cons_tail,
        ih e (fun x hx => hinj x (List.mem_cons_of_mem b hx))]
      · simp [hfbe]
      · simp [hbe]

/-- The central simulation: running the scheduler on a graph whose
origin indices are the positions of the first run's schedule, from
related states, reproduces the first run's output and final counts.
The relation carries: equal outputs, equal current types, equal counts,
and heaps equal up to re-keying of the origin component. -/
theorem sched_sim_go (g1 g2 : GraphData) (sameF : Option String → String → Nat)
    (pick : GraphData → SchedState → Option Key4)
    (hids : g1.ids.Nodup) (hself : ∀ m, m ∉ g1.deps m) (hpk : PickOk pick)
    (HD : g2.deps = g1.deps) (HT : g2.typ = g1.typ) (HDe : g2.depth = g1.depth)
    (hidp : g2.ids.Perm g1.ids)
    (Hord : ∀ n ∈ g1.ids,
      g2.order n = (schedule g1 sameF pick).indexOf n)
    (hsim : ∀ (a b : SchedState) (e : Key4), SchedInv g1 a →
      b.heap.Perm (a.heap.map (remapKey g2.order)) → b.curTy = a.curTy →
      pick g1 a = some e →
      (∀ x ∈ a.heap, keyId x ≠ keyId e →
        g2.order (keyId e) < g2.order (keyId x)) →
      pick g2 b = some (remapKey g2.order e)) :
    ∀ (j : Nat) (a b : SchedState), SchedInv g1 a →
      schedRun g1 sameF pick j a = schedFinal g1 sameF pick →
      b.out = a.out → b.curTy = a.curTy → b.indeg = a.indeg →
      b.heap.Perm (a.heap.map (remapKey g2.order)) →
      (schedRun g2 sameF pick j b).out = (schedFinal g1 sameF pick).out ∧
      (schedRun g2 sameF pick j b).indeg = (schedFinal g1 sameF pick).indeg ∧
      (schedRun g2 sameF pick j b).heap = [] := by
  intro j
  induction j with
  | zero =>
    intro a b _ hF hout hcur hind hperm
    have hF' : a = schedFinal g1 sameF pick := hF
    subst hF'
    refine ⟨hout, hind, ?_⟩
    have hh := @schedFinal_heap g1 sameF pick hids hself hpk
    rw [hh] at hperm
    simpa using hperm
  | succ f ih =>
    intro a b hsa hF hout hcur hind hperm
    have hF' : schedRun g1 sameF pick f (schedStep g1 sameF pick a)
        = schedFinal g1 sameF pick := hF
    cases hpcase : pick g1 a with
    | none =>
      have hempty : a.heap = [] := by
        by_contra hne
        have ht := hpk.total g1 a hne
        rw [hpcase] at ht
        simp at ht
      have hbempty : b.heap = [] := by
        rw [hempty] at hperm
        simpa using hperm
      have hstepa : schedStep g1 sameF pick a = a :=
        schedStep_of_empty hpk hempty
      have hstepb : schedStep g2 sameF pick b = b :=
        schedStep_of_empty hpk hbempty
      rw [hstepa] at hF'
      have hrw : schedRun g2 sameF pick (f + 1) b
          = schedRun g2 sameF pick f b := by
        show schedRun g2 sameF pick f (schedStep g2 sameF pick b) = _
        rw [hstepb]
      rw [hrw]
      exact ih a b hsa hF' hout hcur hind hperm
    | some e =>
      have he : e ∈ a.heap := hpk.mem g1 a e hpcase
      have hsa' := @schedStep_inv g1 sameF pick hids hself hpk a hsa
      have hein : keyId e ∈ g1.ids := hsa.hpSub e he
      have henot : keyId e ∉ a.out := hsa.hpOut e he
      obtain ⟨t, hFout⟩ : ∃ t, (schedFinal g1 sameF pick).out
          = (a.out ++ [keyId e]) ++ t := by
        obtain ⟨t, ht⟩ := schedRun_out_extend f (schedStep g1 sameF pick a)
        refine ⟨t, ?_⟩
        rw [← hF', ht, schedStep_out_of_some hpcase]
      have hmemout : ∀ x ∈ a.heap,
          keyId x ∈ (schedFinal g1 sameF pick).out := by
        intro x hx
        have hmm : keyId x ∈ heapIds a := List.mem_map.mpr ⟨x, hx, rfl⟩
        rcases heap_to_out hids hself hpk (f + 1) a hsa (keyId x) hmm with h | h
        · rw [hF] at h
          exact h
        · rw [hF] at h
          rw [heapIds, @schedFinal_heap g1 sameF pick hids hself hpk] at h
          simp at h
      obtain ⟨R, hSfull⟩ : ∃ R, schedule g1 sameF pick
          = a.out ++ (keyId e :: R) := by
        refine ⟨t ++ sortOrd g1.order (g1.ids.filter (fun k =>
          decide (0 < (schedFinal g1 sameF pick).indeg k))), ?_⟩
        rw [schedule_eq g1 sameF pick, hFout]
        simp [List.append_assoc]
      have hposition : ∀ x ∈ a.heap, keyId x ≠ keyId e →
          g2.order (keyId e) < g2.order (keyId x) := by
        intro x hx hne
        have hxout := hmemout x hx
        have hxnot : keyId x ∉ a.out := hsa.hpOut x hx
        have hxin : keyId x ∈ g1.ids := hsa.hpSub x hx
        rw [Hord _ hein, Hord _ hxin, hSfull]
        rw [List.indexOf_append_of_not_mem henot,
          List.indexOf_append_of_not_mem hxnot,
          List.indexOf_cons_self,
          List.indexOf_cons_ne R (fun h => hne h.symm)]
        omega
      have hpb : pick g2 b = some (remapKey g2.order e) :=
        hsim a b e hsa hperm hcur hpcase hposition
      have hstepa2 := @schedStep_some g1 sameF pick a e hpcase
      have hstepb2 := @schedStep_some g2 sameF pick b (remapKey g2.order e) hpb
      have hout' : (schedStep g2 sameF pick b).out
          = (schedStep g1 sameF pick a).out := by
        rw [hstepb2, hstepa2]
        show b.out ++ [keyId e] = a.out ++ [keyId e]
        rw [hout]
      have hcur' : (schedStep g2 sameF pick b).curTy
          = (schedStep g1 sameF pick a).curTy := by
        rw [hstepb2, hstepa2]
        show some (g2.typ (keyId e)) = some (g1.typ (keyId e))
        rw [HT]
      have hind' : (schedStep g2 sameF pick b).indeg
          = (schedStep g1 sameF pick a).indeg := by
        rw [hstepb2, hstepa2]
        show (fun m => if keyId e ∈ g2.deps m then b.indeg m - 1
            else b.indeg m)
          = (fun m => if keyId e ∈ g1.deps m then a.indeg m - 1
            else a.indeg m)
        rw [HD, hind]
      have hinj : ∀ x ∈ a.heap,
          remapKey g2.order x = remapKey g2.order e → x = e := by
        intro x hx hxe
        have hkk := congrArg keyId hxe
        exact nodup_map_inj keyId hsa.hpN x hx e he hkk
      have hheap' : (schedStep g2 sameF pick b).heap.Perm
          ((schedStep g1 sameF pick a).heap.map (remapKey g2.order)) := by
        rw [hstepb2, hstepa2]
        show (b.heap.erase (remapKey g2.order e)
            ++ (g2.ids.filter (fun m => decide (keyId e ∈ g2.deps m) &&
                ((if keyId e ∈ g2.deps m then b.indeg m - 1
                  else b.indeg m) == 0))).map
              (mkEntry g2 sameF (some (g2.typ (keyId e))))).Perm
          ((a.heap.erase e
            ++ (g1.ids.filter (fun m => decide (keyId e ∈ g1.deps m) &&
                ((if keyId e ∈ g1.deps m then a.indeg m - 1
                  else a.indeg m) == 0))).map
              (mkEntry g1 sameF (some (g1.typ (keyId e))))).map
            (remapKey g2.order))
        rw [List.map_append, HD, HT, hind]
        apply List.Perm.append
        · refine (perm_erase_k4 hperm (remapKey g2.order e)).trans ?_
          rw [← map_erase_k4 (remapKey g2.order) a.heap e hinj]
        · have hmkf : mkEntry g2 sameF (some (g1.typ (keyId e)))
              = (remapKey g2.order) ∘ (mkEntry g1 sameF
                (some (g1.typ (keyId e)))) := by
            funext m
            simp only [Function.comp, mkEntry, remapKey, keyId]
            rw [HDe, HT]
          rw [hmkf, List.map_map]
          exact (hidp.filter _).map _
      exact ih (schedStep g1 sameF pick a) (schedStep g2 sameF pick b)
        hsa' hF' hout' hcur' hind' hheap'

/-- Order robustness of the scheduler: substituting, for every record,
its position in the first run's schedule as origin index (and keeping
dependency sets, kinds and depths) reproduces the first run's schedule
exactly, whatever proper pop policy is used, as long as the policy picks
corresponding entries on related states. -/
theorem sched_sim (g1 g2 : GraphData) (sameF : Option String → String → Nat)
    (pick : GraphData → SchedState → Option Key4)
    (hids : g1.ids.Nodup) (hids2 : g2.ids.Nodup)
    (hself : ∀ m, m ∉ g1.deps m) (hpk : PickOk pick)
    (HD : g2.deps = g1.deps) (HT : g2.typ = g1.typ) (HDe : g2.depth = g1.depth)
    (hmemiff : ∀ n, n ∈ g2.ids ↔ n ∈ g1.ids)
    (Hord : ∀ n ∈ g1.ids,
      g2.order n = (schedule g1 sameF pick).indexOf n)
    (hsim : ∀ (a b : SchedState) (e : Key4), SchedInv g1 a →
      b.heap.Perm (a.heap.map (remapKey g2.order)) → b.curTy = a.curTy →
      pick g1 a = some e →
      (∀ x ∈ a.heap, keyId x ≠ keyId e →
        g2.order (keyId e) < g2.order (keyId x)) →
      pick g2 b = some (remapKey g2.order e)) :
    schedule g2 sameF pick = schedule g1 sameF pick := by
  have hidp : g2.ids.Perm g1.ids :=
    (List.perm_ext_iff_of_nodup hids2 hids).mpr hmemiff
  have hlen : g2.ids.length = g1.ids.length := hidp.length_eq
  have hinit_out : (schedInit g2 sameF).out = (schedInit g1 sameF).out := rfl
  have hinit_cur : (schedInit g2 sameF).curTy = (schedInit g1 sameF).curTy :=
    rfl
  have hinit_ind : (schedInit g2 sameF).indeg = (schedInit g1 sameF).indeg := by
    show (fun n => ((g2.deps n).card : Int)) = fun n => ((g1.deps n).card : Int)
    rw [HD]
  have hinit_heap : (schedInit g2 sameF).heap.Perm
      ((schedInit g1 sameF).heap.map (remapKey g2.order)) := by
    show ((g2.ids.filter (fun n => (g2.deps n).card == 0)).map
        (mkEntry g2 sameF Option.none)).Perm
      (((g1.ids.filter (fun n => (g1.deps n).card == 0)).map
        (mkEntry g1 sameF Option.none)).map (remapKey g2.order))
    rw [HD, List.map_map]
    have hmkf : mkEntry g2 sameF Option.none
        = (remapKey g2.order) ∘ (mkEntry g1 sameF Option.none) := by
      funext m
      simp only [Function.comp, mkEntry, remapKey, keyId]
      rw [HDe, HT]
    rw [hmkf]
    exact (hidp.filter _).map _
  obtain ⟨hOut, hInd, _⟩ := sched_sim_go g1 g2 sameF pick hids hself hpk
    HD HT HDe hidp Hord hsim g1.ids.length
    (schedInit g1 sameF) (schedInit g2 sameF)
    (schedInit_inv hids) rfl hinit_out hinit_cur hinit_ind hinit_heap
  have hF2 : schedFinal g2 sameF pick
      = schedRun g2 sameF pick g1.ids.length (schedInit g2 sameF) := by
    show schedRun g2 sameF pick g2.ids.length (schedInit g2 sameF) = _
    rw [hlen]
  rw [schedule_eq g2 sameF pick, schedule_eq g1 sameF pick, hF2, hOut, hInd]
  congr 1
  have hSnodup : (schedule g1 sameF pick).Nodup :=
    ((schedule_perm hids hself hpk).nodup_iff).mpr hids
  apply sorted_key_eq (fun n => (schedule g1 sameF pick).indexOf n)
  · have hA_pair := sortOrd_pairwise g2.order (g2.ids.filter (fun k =>
      decide (0 < (schedFinal g1 sameF pick).indeg k)))
    have hA_nodup : (sortOrd g2.order (g2.ids.filter (fun k =>
        decide (0 < (schedFinal g1 sameF pick).indeg k)))).Nodup :=
      ((sortOrd_perm g2.order _).nodup_iff).mpr (hids2.filter _)
    refine (hA_pair.and hA_nodup).imp_of_mem ?_
    intro x y hx hy hr
    have hx' : x ∈ g2.ids :=
      (List.mem_filter.mp ((sortOrd_perm g2.order _).mem_iff.mp hx)).1
    have hy' : y ∈ g2.ids :=
      (List.mem_filter.mp ((sortOrd_perm g2.order _).mem_iff.mp hy)).1
    have hx1 : x ∈ g1.ids := (hmemiff x).mp hx'
    have hy1 : y ∈ g1.ids := (hmemiff y).mp hy'
    have hxS : x ∈ schedule g1 sameF pick :=
      (schedule_perm hids hself hpk).mem_iff.mpr hx1
    have hyS : y ∈ schedule g1 sameF pick :=
      (schedule_perm hids hself hpk).mem_iff.mpr hy1
    have hle := hr.1
    rw [Hord x hx1, Hord y hy1] at hle
    have hne : (schedule g1 sameF pick).indexOf x
        ≠ (schedule g1 sameF pick).indexOf y :=
      fun h => hr.2 ((List.indexOf_inj hxS hyS).mp h)
    omega
  · have hsub : List.Sublist (sortOrd g1.order (g1.ids.filter (fun k =>
        decide (0 < (schedFinal g1 sameF pick).indeg k))))
        (schedule g1 sameF pick) := by
      rw [schedule_eq g1 sameF pick]
      exact List.sublist_append_right _ _
    exact (pairwise_indexOf hSnodup).sublist hsub
  · intro a
    exact ((sortOrd_perm g2.order _).mem_iff).trans
      (((hidp.filter _).mem_iff).trans
        ((sortOrd_perm g1.order _).mem_iff.symm))

/-! ## Graph invariance under reordering of blocks with distinct headers -/

theorem depsOf_perm {ents1 ents2 : List Block} (hperm : ents2.Perm ents1) :
    depsOf ents2 = depsOf ents1 := by
  funext n
  apply Finset.ext
  intro x
  rw [mem_depsOf, mem_depsOf]
  constructor
  · rintro ⟨⟨b, hb, hbe, hxr⟩, hxn⟩
    exact ⟨⟨b, hperm.mem_iff.mp hb, hbe, hxr⟩, hxn⟩
  · rintro ⟨⟨b, hb, hbe, hxr⟩, hxn⟩
    exact ⟨⟨b, hperm.mem_iff.mpr hb, hbe, hxr⟩, hxn⟩

theorem entOf_perm {ents1 ents2 : List Block}
    (hperm : ents2.Perm ents1) (hN : (ents1.map Block.eid).Nodup) :
    entOf ents2 = entOf ents1 := by
  funext n
  by_cases hn : n ∈ ents1.map Block.eid
  · obtain ⟨b, hb, rfl⟩ := List.mem_map.mp hn
    have hb2 : b ∈ ents2 := hperm.mem_iff.mpr hb
    have hN2 : (ents2.map Block.eid).Nodup :=
      ((hperm.map Block.eid).nodup_iff).mpr hN
    rw [entOf_self hN2 hb2, entOf_self hN hb]
  · have h1 : ents1.filter (fun b => b.eid == n) = [] := by
      rw [List.filter_eq_nil_iff]
      intro x hx
      simp only [beq_iff_eq]
      intro heq
      exact hn (List.mem_map.mpr ⟨x, hx, heq⟩)
    have h2 : ents2.filter (fun b => b.eid == n) = [] := by
      rw [List.filter_eq_nil_iff]
      intro x hx
      simp only [beq_iff_eq]
      intro heq
      exact hn (List.mem_map.mpr ⟨x, hperm.mem_iff.mp hx, heq⟩)
    unfold entOf
    rw [h1, h2]

/-- Running `topo_grouped` on its own output reproduces the output, for
records with pairwise distinct header identifiers: the reordered file
already lists every record after its dependencies, in exactly the order
the scheduler would choose again. -/
theorem topo_idem_core (ents : List Block) (mode : GroupMode)
    (hN : (ents.map Block.eid).Nodup) :
    topo_grouped (topo_grouped ents mode) mode = topo_grouped ents mode := by
  have hperm : (topo_grouped ents mode).Perm ents := topo_perm_of_nodup ents mode hN
  have hN2 : ((topo_grouped ents mode).map Block.eid).Nodup :=
    ((hperm.map Block.eid).nodup_iff).mpr hN
  have HD : (buildGraph (topo_grouped ents mode)).deps = (buildGraph ents).deps :=
    depsOf_perm hperm
  have HEnt : entOf (topo_grouped ents mode) = entOf ents := entOf_perm hperm hN
  have HT : (buildGraph (topo_grouped ents mode)).typ = (buildGraph ents).typ := by
    funext n
    show (entOf (topo_grouped ents mode) n).typ = (entOf ents n).typ
    rw [HEnt]
  have HDe : (buildGraph (topo_grouped ents mode)).depth
      = (buildGraph ents).depth := by
    show (fun n => (get_depthF (depsOf (topo_grouped ents mode))
        ((topo_grouped ents mode).length + 1) n).getD 0)
      = fun n => (get_depthF (depsOf ents) (ents.length + 1) n).getD 0
    rw [depsOf_perm hperm, hperm.length_eq]
  have hmemiff : ∀ n, n ∈ (buildGraph (topo_grouped ents mode)).ids
      ↔ n ∈ (buildGraph ents).ids := by
    intro n
    exact mem_ids.trans (((hperm.map Block.eid).mem_iff).trans mem_ids.symm)
  have hmapeid := topo_map_eid ents mode
  have Hord : ∀ n ∈ (buildGraph ents).ids,
      (buildGraph (topo_grouped ents mode)).order n
        = (schedule (buildGraph ents) (sameFor mode)
            (pickFor mode)).indexOf n := by
    intro n hn
    rw [← hmapeid]
    have hnS : n ∈ (topo_grouped ents mode).map Block.eid := by
      rw [hmapeid]
      exact (topo_schedule_perm ents mode).mem_iff.mpr hn
    have hi : ((topo_grouped ents mode).map Block.eid).indexOf n
        < ((topo_grouped ents mode).map Block.eid).length :=
      List.indexOf_lt_length.mpr hnS
    have hi2 : ((topo_grouped ents mode).map Block.eid).indexOf n
        < (topo_grouped ents mode).length := by
      rw [List.length_map] at hi
      exact hi
    have hgot := List.indexOf_get hi
    rw [List.get_map] at hgot
    have hog := originOf_get hN2
      (((topo_grouped ents mode).map Block.eid).indexOf n) hi2
    rw [hgot] at hog
    exact hog
  have hsim : ∀ (a b : SchedState) (e : Key4),
      SchedInv (buildGraph ents) a →
      b.heap.Perm (a.heap.map
        (remapKey (buildGraph (topo_grouped ents mode)).order)) →
      b.curTy = a.curTy →
      pickFor mode (buildGraph ents) a = some e →
      (∀ x ∈ a.heap, keyId x ≠ keyId e →
        (buildGraph (topo_grouped ents mode)).order (keyId e)
          < (buildGraph (topo_grouped ents mode)).order (keyId x)) →
      pickFor mode (buildGraph (topo_grouped ents mode)) b
        = some (remapKey (buildGraph (topo_grouped ents mode)).order e) := by
    cases mode with
    | strict =>
      intro a b e hinv hp' hcur hp hpos
      exact pickStrict_sim HT hp' hcur hinv.hpN hp hpos
    | soft =>
      intro a b e hinv hp' hcur hp hpos
      exact pickSingle_sim (buildGraph ents)
        (buildGraph (topo_grouped ents GroupMode.soft)) hp' hinv.hpN hp hpos
    | nogroup =>
      intro a b e hinv hp' hcur hp hpos
      exact pickSingle_sim (buildGraph ents)
        (buildGraph (topo_grouped ents GroupMode.nogroup)) hp' hinv.hpN hp hpos
  have hsched : schedule (buildGraph (topo_grouped ents mode)) (sameFor mode)
        (pickFor mode)
      = schedule (buildGraph ents) (sameFor mode) (pickFor mode) :=
    sched_sim (buildGraph ents) (buildGraph (topo_grouped ents mode))
      (sameFor mode) (pickFor mode) (ids_nodup ents)
      (ids_nodup (topo_grouped ents mode)) (buildGraph_no_self ents)
      (pickFor_ok mode) HD HT HDe hmemiff Hord hsim
  show (schedule (buildGraph (topo_grouped ents mode)) (sameFor mode)
      (pickFor mode)).map (entOf (topo_grouped ents mode))
    = (schedule (buildGraph ents) (sameFor mode) (pickFor mode)).map
      (entOf ents)
  rw [hsched, HEnt]

/-! ## The claims -/

/-- C1 (corrected): the no-forward-reference invariant fails as stated
when a reference names a nonexistent record — on the acyclic input
`entsDangling` the scheduler emits record `#1` first although it
references record `#2`, which exists in the file but only at a later
position. -/
theorem C1_counterexample :
    AcyclicG entsDangling ∧
    (topo_grouped entsDangling GroupMode.strict).map Block.eid = [1, 2] ∧
    2 ∈ (entOf entsDangling 1).refs ∧
    (2 : Nat) ∈ entsDangling.map Block.eid :=
  ⟨⟨fun n => 3 - n, by decide⟩, by decide, by decide, by decide⟩

/-- C1 (amended): for every input whose references all resolve to some
record header and whose dependency graph is acyclic, in the scheduler's
output under any clustering mode no record precedes a record it
references: every non-self reference of the record at position `i` is
the header of some record at a position `j < i`. -/
theorem C1_no_forward_reference (ents : List Block) (mode : GroupMode)
    (hcl : ClosedRefs ents) (hac : AcyclicG ents) :
    ∀ i, ∀ hi : i < (topo_grouped ents mode).length, ∀ r,
      r ∈ ((topo_grouped ents mode).get ⟨i, hi⟩).refs →
      r ≠ ((topo_grouped ents mode).get ⟨i, hi⟩).eid →
      ∃ j, ∃ hj : j < (topo_grouped ents mode).length, j < i ∧
        ((topo_grouped ents mode).get ⟨j, hj⟩).eid = r :=
  topo_no_forward_core ents mode hcl hac

theorem C1_witness :
    ClosedRefs entsPtDir ∧ AcyclicG entsPtDir ∧
    ∀ i, ∀ hi : i < (topo_grouped entsPtDir GroupMode.strict).length, ∀ r,
      r ∈ ((topo_grouped entsPtDir GroupMode.strict).get ⟨i, hi⟩).refs →
      r ≠ ((topo_grouped entsPtDir GroupMode.strict).get ⟨i, hi⟩).eid →
      ∃ j, ∃ hj : j < (topo_grouped entsPtDir GroupMode.strict).length,
        j < i ∧
        ((topo_grouped entsPtDir GroupMode.strict).get ⟨j, hj⟩).eid = r :=
  ⟨by decide, ⟨fun n => n, by decide⟩,
    C1_no_forward_reference entsPtDir GroupMode.strict (by decide)
      ⟨fun n => n, by decide⟩⟩

/-- C2 (code bug): on the two-record mutual reference cycle
`#1 = A(#2); #2 = B(#1);` the depth recursion of `build_graph` never
returns, whatever recursion budget it is given — the memoized
`get_depth` has no cycle guard, so processing the file dies in
unbounded recursion instead of emitting both records. -/
theorem C2_get_depth_diverges :
    ∀ fuel : Nat, get_depthF (depsOf cyc2) fuel 1 = Option.none ∧
      get_depthF (depsOf cyc2) fuel 2 = Option.none := by
  intro fuel
  induction fuel with
  | zero => exact ⟨rfl, rfl⟩
  | succ f ih =>
    have e1 : ¬ (depsOf cyc2 1 = ∅) := by decide
    have e2 : ¬ (depsOf cyc2 2 = ∅) := by decide
    have m1 : (2 : Nat) ∈ depsOf cyc2 1 := by decide
    have m2 : (1 : Nat) ∈ depsOf cyc2 2 := by decide
    refine ⟨?_, ?_⟩
    · rw [get_depthF, if_neg e1, if_pos]
      exact Finset.mem_image.mpr ⟨2, m1, ih.2⟩
    · rw [get_depthF, if_neg e2, if_pos]
      exact Finset.mem_image.mpr ⟨1, m2, ih.1⟩

/-- C3 (confirmed): renumbering a scheduled list whose references all
resolve within the list succeeds and gives the block at 1-based
position `k` the new header identifier `k`: the output headers are
exactly `1..N` in order, and every rewritten reference lies within
`1..N`. -/
theorem C3_renumbering_bijection (ents : List Block) (mode : GroupMode)
    (hcl : ∀ b ∈ topo_grouped ents mode, ∀ r ∈ b.refs,
      r ∈ (topo_grouped ents mode).map Block.eid) :
    ∃ out, renumber_entities (topo_grouped ents mode) = some out ∧
      out.length = (topo_grouped ents mode).length ∧
      (∀ k, ∀ hk : k < out.length, (out.get ⟨k, hk⟩).eid = k + 1) ∧
      (∀ b' ∈ out, ∀ r ∈ b'.refs,
        1 ≤ r ∧ r ≤ (topo_grouped ents mode).length) ∧
      out.map Block.eid = List.range' 1 (topo_grouped ents mode).length := by
  apply renumber_props
  · rw [topo_map_eid]
    exact ((topo_schedule_perm ents mode).nodup_iff).mpr (ids_nodup ents)
  · exact hcl

theorem C3_witness :
    (∀ b ∈ topo_grouped entsPtDir GroupMode.strict, ∀ r ∈ b.refs,
      r ∈ (topo_grouped entsPtDir GroupMode.strict).map Block.eid) ∧
    ∃ out, renumber_entities (topo_grouped entsPtDir GroupMode.strict)
        = some out ∧
      out.length = (topo_grouped entsPtDir GroupMode.strict).length ∧
      (∀ k, ∀ hk : k < out.length, (out.get ⟨k, hk⟩).eid = k + 1) ∧
      (∀ b' ∈ out, ∀ r ∈ b'.refs,
        1 ≤ r ∧ r ≤ (topo_grouped entsPtDir GroupMode.strict).length) ∧
      out.map Block.eid
        = List.range' 1 (topo_grouped entsPtDir GroupMode.strict).length :=
  ⟨by decide, C3_renumbering_bijection entsPtDir GroupMode.strict (by decide)⟩

/-- C4 (confirmed): on an input with pairwise distinct record
identifiers the scheduler's output — topological pass plus appended
cycle leftovers — carries exactly the input's identifiers, each once,
in some order. -/
theorem C4_identifier_preservation (ents : List Block) (mode : GroupMode)
    (hN : (ents.map Block.eid).Nodup) :
    ((topo_grouped ents mode).map Block.eid).Perm (ents.map Block.eid) ∧
    ((topo_grouped ents mode).map Block.eid).Nodup := by
  refine ⟨(topo_perm_of_nodup ents mode hN).map Block.eid, ?_⟩
  rw [topo_map_eid]
  exact ((topo_schedule_perm ents mode).nodup_iff).mpr (ids_nodup ents)

theorem C4_witness :
    (cyc2.map Block.eid).Nodup ∧
    ((topo_grouped cyc2 GroupMode.strict).map Block.eid).Perm
      (cyc2.map Block.eid) ∧
    ((topo_grouped cyc2 GroupMode.strict).map Block.eid).Nodup :=
  ⟨by decide, C4_identifier_preservation cyc2 GroupMode.strict (by decide)⟩

/-- C5 (corrected): in soft mode the continuation penalty is not
computed at the moment of selection.  On `entsABA`, after emitting
record `#1` of kind `A`, the code pops record `#2` of kind `B` (its
penalty `1` was fixed when it was pushed before anything was emitted),
although the selection-time rule modelled by `selMin` would pick the
ready record `#3`, whose kind equals the current kind `A`. -/
theorem C5_counterexample :
    (pickSingle (buildGraph entsABA)
        (schedRun (buildGraph entsABA) (sameFor GroupMode.soft) pickSingle 1
          (schedInit (buildGraph entsABA) (sameFor GroupMode.soft)))).map keyId
      = some 2 ∧
    3 ∈ (schedRun (buildGraph entsABA) (sameFor GroupMode.soft) pickSingle 1
          (schedInit (buildGraph entsABA)
            (sameFor GroupMode.soft))).heap.map keyId ∧
    (schedRun (buildGraph entsABA) (sameFor GroupMode.soft) pickSingle 1
          (schedInit (buildGraph entsABA) (sameFor GroupMode.soft))).curTy
      = some "A" ∧
    selMin (buildGraph entsABA) (some "A")
      ((schedRun (buildGraph entsABA) (sameFor GroupMode.soft) pickSingle 1
          (schedInit (buildGraph entsABA)
            (sameFor GroupMode.soft))).heap.map keyId)
      = some 3 := by decide

/-- C5 (amended): in soft mode every step pops a ready record with the
least `(depth, continuation penalty, origin index)` key, where the
penalty of a candidate is fixed when it enters the ready queue — `0`
exactly when its kind equals the kind of the record emitted immediately
before that moment — not at selection: the scheduler coincides with the
push-time-penalty machine on every input. -/
theorem C5_soft_penalty_push_time (ents : List Block) :
    topo_grouped ents GroupMode.soft = topoSoftPush ents :=
  topo_soft_eq_push ents

/-- C6 (confirmed): on the five independent leaves `PT,DIR,PT,DIR,PT`
(origin positions 0–4) strict mode emits the three `PT` records as one
contiguous block followed by the two `DIR` records as one contiguous
block, while none mode reproduces ascending origin order. -/
theorem C6_clustering_effect :
    topo_grouped entsPtDir GroupMode.strict =
      [⟨1, "PT", []⟩, ⟨3, "PT", []⟩, ⟨5, "PT", []⟩, ⟨2, "DIR", []⟩,
       ⟨4, "DIR", []⟩] ∧
    topo_grouped entsPtDir GroupMode.nogroup = entsPtDir := by decide

/-- C7 (corrected): the `DanglingReference` branch is reachable even
when splitting, tokenization and graph building all succeed — on the
single-record input `#1 = FOO(#99);` every upstream stage succeeds,
yet renumbering aborts because `#99` has no assigned mapping. -/
theorem C7_counterexample :
    renumber_entities (topo_grouped entsDangle1 GroupMode.strict) =
      Option.none := by decide

/-- C7 (amended): when every reference of the input resolves to some
record's header identifier, renumbering the scheduled blocks never
encounters a missing mapping: it returns a result for every such
input. -/
theorem C7_renumber_total_closed (ents : List Block) (mode : GroupMode)
    (hcl : ClosedRefs ents) :
    (renumber_entities (topo_grouped ents mode)).isSome :=
  renumber_topo_isSome ents mode hcl

theorem C7_witness :
    ClosedRefs entsPtDir ∧
    (renumber_entities (topo_grouped entsPtDir GroupMode.nogroup)).isSome
      = true :=
  ⟨by decide, C7_renumber_total_closed entsPtDir GroupMode.nogroup (by decide)⟩

/-- C8 (code bug): the directory scan pattern `*.st?p` requires exactly
one character between `t` and `p` and matches case-sensitively: it
accepts `.step` and the alien `.stop`, but rejects the canonical
3-letter `.stp` and the upper-case `.STEP`, contradicting the claimed
case-insensitive `.step`/`.stp` selection. -/
theorem C8_glob_pattern :
    stepGlobMatch "model.stp" = false ∧ stepGlobMatch "model.step" = true ∧
    stepGlobMatch "model.stop" = true ∧ stepGlobMatch "model.STEP" = false := by
  decide

/-- C9 (corrected): idempotence fails as stated — `entsDup` is acyclic,
yet a second pass reorders the output of the first, because a duplicate
header identifier makes the rebuilt origin indices disagree with the
first pass's emission order. -/
theorem C9_counterexample :
    AcyclicG entsDup ∧
    (topo_grouped entsDup GroupMode.nogroup).map Block.eid = [2, 3, 4, 5] ∧
    (topo_grouped (topo_grouped entsDup GroupMode.nogroup)
        GroupMode.nogroup).map Block.eid = [2, 5, 3, 4] ∧
    topo_grouped (topo_grouped entsDup GroupMode.nogroup) GroupMode.nogroup
      ≠ topo_grouped entsDup GroupMode.nogroup :=
  ⟨⟨fun n => n, by decide⟩, by decide, by decide, by decide⟩

/-- C9 (amended): on every acyclic input whose record header
identifiers are pairwise distinct, the reordering with renumbering
disabled is idempotent under every clustering policy: applying the
engine to its own output reproduces that output exactly. -/
theorem C9_idempotent_nodup (ents : List Block) (mode : GroupMode)
    (hac : AcyclicG ents) (hN : (ents.map Block.eid).Nodup) :
    topo_grouped (topo_grouped ents mode) mode = topo_grouped ents mode :=
  topo_idem_core ents mode hN

theorem C9_witness :
    AcyclicG entsPtDir ∧ (entsPtDir.map Block.eid).Nodup ∧
    topo_grouped (topo_grouped entsPtDir GroupMode.strict) GroupMode.strict
      = topo_grouped entsPtDir GroupMode.strict :=
  ⟨⟨fun n => n, by decide⟩, by decide,
    C9_idempotent_nodup entsPtDir GroupMode.strict ⟨fun n => n, by decide⟩
      (by decide)⟩

/-- C10 (confirmed): a duplicated header identifier raises no error;
the later block silently wins the identifier's record, kind and origin
index, the scheduled output keeps exactly that one block for the
identifier, and the dependency edges of the identifier accumulate over
all blocks that carry it. -/
theorem C10_duplicate_last_wins (pre post : List Block) (b2 : Block)
    (mode : GroupMode) (hpost : ∀ b ∈ post, b.eid ≠ b2.eid) :
    entOf (pre ++ b2 :: post) b2.eid = b2 ∧
    typOf (pre ++ b2 :: post) b2.eid = b2.typ ∧
    originOf (pre ++ b2 :: post) b2.eid = pre.length ∧
    (topo_grouped (pre ++ b2 :: post) mode).filter
      (fun b => b.eid == b2.eid) = [b2] ∧
    (∀ x, x ∈ depsOf (pre ++ b2 :: post) b2.eid ↔
      ((∃ b ∈ pre ++ b2 :: post, b.eid = b2.eid ∧ x ∈ b.refs) ∧
        x ≠ b2.eid)) := by
  have hent : entOf (pre ++ b2 :: post) b2.eid = b2 :=
    entOf_append_last rfl hpost
  have hmem : b2.eid ∈ (pre ++ b2 :: post).map Block.eid :=
    List.mem_map.mpr ⟨b2, by simp, rfl⟩
  refine ⟨hent, ?_, ?_, ?_, fun x => mem_depsOf⟩
  · show (entOf (pre ++ b2 :: post) b2.eid).typ = b2.typ
    rw [hent]
  · show originGo b2.eid 0 0 (pre ++ b2 :: post) = pre.length
    rw [originGo_append]
    show originGo b2.eid (0 + pre.length + 1)
      (if b2.eid == b2.eid then 0 + pre.length else originGo b2.eid 0 0 pre)
      post = pre.length
    rw [originGo_no_hit b2.eid post _ _ hpost]
    simp
  · rw [topo_filter_eid (pre ++ b2 :: post) mode hmem, hent]

theorem C10_witness :
    entOf [⟨5, "A", [7]⟩, ⟨5, "B", []⟩] 5 = ⟨5, "B", []⟩ ∧
    typOf [⟨5, "A", [7]⟩, ⟨5, "B", []⟩] 5 = "B" ∧
    originOf [⟨5, "A", [7]⟩, ⟨5, "B", []⟩] 5 = 1 ∧
    (topo_grouped [⟨5, "A", [7]⟩, ⟨5, "B", []⟩] GroupMode.strict).filter
      (fun b => b.eid == 5) = [⟨5, "B", []⟩] ∧
    (∀ x, x ∈ depsOf [⟨5, "A", [7]⟩, ⟨5, "B", []⟩] 5 ↔
      ((∃ b ∈ [(⟨5, "A", [7]⟩ : Block), ⟨5, "B", []⟩],
        b.eid = 5 ∧ x ∈ b.refs) ∧ x ≠ 5)) :=
  C10_duplicate_last_wins [⟨5, "A", [7]⟩] [] ⟨5, "B", []⟩ GroupMode.strict
    (by simp)
